import Mathlib

/-!
Verification of the commit-message processing core of the `ai-commit-tool`
repository.  The TypeScript sources are shallowly embedded: strings are
modelled as `List Char` (`Str`), every JavaScript regular-expression
replacement used by the code is modelled by an explicit executable scanner
with the same semantics on the patterns that occur in the source, and the
two coexisting pipelines (the legacy monolithic `templates.ts` and the
modular `templates/` directory) are embedded separately, mirroring the
duplication in the source tree.
-/

set_option maxHeartbeats 1000000
set_option maxRecDepth 100000

/-- Strings of the embedded program, modelled as lists of characters. -/
abbrev Str := List Char

/-- Opening curly brace character (written via its code point). -/
def lbrace : Char := Char.ofNat 123

/-- Closing curly brace character (written via its code point). -/
def rbrace : Char := Char.ofNat 125

/-- Whitespace test matching the JavaScript `\s` class on the ASCII range
(space, tab, line feed, carriage return, vertical tab, form feed). -/
def isSpaceChar (c : Char) : Bool :=
  c = ' ' || c = '\t' || c = '\n' || c = '\r' || c = Char.ofNat 11 || c = Char.ofNat 12

/-- Line-terminator test: the characters that the JavaScript `.` metacharacter
refuses to match (`\n` and `\r` on the ASCII range). -/
def isLineTerm (c : Char) : Bool :=
  c = '\n' || c = '\r'

/-- ASCII lower-casing of a single character, the effect of JavaScript
`toLowerCase` on the ASCII inputs handled by the tool. -/
def lowerChar (c : Char) : Char :=
  match c with
  | 'A' => 'a' | 'B' => 'b' | 'C' => 'c' | 'D' => 'd' | 'E' => 'e' | 'F' => 'f'
  | 'G' => 'g' | 'H' => 'h' | 'I' => 'i' | 'J' => 'j' | 'K' => 'k' | 'L' => 'l'
  | 'M' => 'm' | 'N' => 'n' | 'O' => 'o' | 'P' => 'p' | 'Q' => 'q' | 'R' => 'r'
  | 'S' => 's' | 'T' => 't' | 'U' => 'u' | 'V' => 'v' | 'W' => 'w' | 'X' => 'x'
  | 'Y' => 'y' | 'Z' => 'z'
  | c => c

/-- ASCII upper-casing of a single character, the effect of JavaScript
`toUpperCase` on the ASCII inputs handled by the tool. -/
def upperChar (c : Char) : Char :=
  match c with
  | 'a' => 'A' | 'b' => 'B' | 'c' => 'C' | 'd' => 'D' | 'e' => 'E' | 'f' => 'F'
  | 'g' => 'G' | 'h' => 'H' | 'i' => 'I' | 'j' => 'J' | 'k' => 'K' | 'l' => 'L'
  | 'm' => 'M' | 'n' => 'N' | 'o' => 'O' | 'p' => 'P' | 'q' => 'Q' | 'r' => 'R'
  | 's' => 'S' | 't' => 'T' | 'u' => 'U' | 'v' => 'V' | 'w' => 'W' | 'x' => 'X'
  | 'y' => 'Y' | 'z' => 'Z'
  | c => c

/-- Character-wise lower-casing of a string (JavaScript `toLowerCase`). -/
def lowerStr (s : Str) : Str := s.map lowerChar

/-- Does `pat` occur at the start of `s`? -/
def startsWith : Str → Str → Bool
  | [], _ => true
  | _ :: _, [] => false
  | p :: ps, c :: cs => p = c && startsWith ps cs

/-- Does `pat` occur anywhere inside `hay`?  (JavaScript `String.includes`.) -/
def isSubstr (pat : Str) : Str → Bool
  | [] => startsWith pat []
  | c :: cs => startsWith pat (c :: cs) || isSubstr pat cs

/-- JavaScript `trim`: drop whitespace from both ends. -/
def trimStr (s : Str) : Str :=
  ((s.dropWhile isSpaceChar).reverse.dropWhile isSpaceChar).reverse

/-- JavaScript `split('\n')`: the result is never empty and never contains a
line-feed character. -/
def splitNL : Str → List Str
  | [] => [[]]
  | c :: rest =>
    if c = '\n' then [] :: splitNL rest
    else
      match splitNL rest with
      | [] => [[c]]
      | l :: ls => (c :: l) :: ls

/-- JavaScript `join('\n')` over a list of lines. -/
def joinNL : List Str → Str
  | [] => []
  | [l] => l
  | l :: ls => l ++ '\n' :: joinNL ls

mutual

/-- Worker for `splitWs`: consuming ordinary characters into the current
token `cur` (kept reversed). -/
def wsplit : Str → Str → List Str
  | [], cur => [cur.reverse]
  | c :: r, cur =>
    if isSpaceChar c then cur.reverse :: wskip r else wsplit r (c :: cur)

/-- Worker for `splitWs`: consuming the rest of a whitespace run. -/
def wskip : Str → List Str
  | [] => [[]]
  | c :: r => if isSpaceChar c then wskip r else wsplit r [c]

end

/-- JavaScript `split(/\s+/)`: pieces between maximal whitespace runs, with an
empty leading piece when the string starts with whitespace and an empty
trailing piece when it ends with whitespace. -/
def splitWs (s : Str) : List Str := wsplit s []

/-- JavaScript `replace(/\.$/, '')`: drop a single trailing period. -/
def removeTrailingPeriod (s : Str) : Str :=
  match s.reverse with
  | '.' :: r => r.reverse
  | _ => s

/-- JavaScript `charAt(0).toUpperCase() + slice(1)` (empty string maps to
itself). -/
def capitalizeFirst : Str → Str
  | [] => []
  | c :: r => upperChar c :: r

/-- JavaScript `charAt(0).toLowerCase() + slice(1)` (empty string maps to
itself). -/
def lowercaseFirst : Str → Str
  | [] => []
  | c :: r => lowerChar c :: r

/-- Split `s` at the first occurrence of `pat`, returning the part before the
match and the part after it, or `none` when `pat` does not occur. -/
def splitAtSub (pat : Str) : Str → Option (Str × Str)
  | [] => if startsWith pat [] then some ([], []) else none
  | c :: rest =>
    if startsWith pat (c :: rest) then some ([], (c :: rest).drop pat.length)
    else
      match splitAtSub pat rest with
      | some (pre, post) => some (c :: pre, post)
      | none => none

theorem splitAtSub_length {pat s pre post : Str}
    (h : splitAtSub pat s = some (pre, post)) :
    pre.length + post.length ≤ s.length := by
  induction s generalizing pre post with
  | nil =>
    unfold splitAtSub at h
    split at h
    · simp_all
    · simp_all
  | cons c rest ih =>
    unfold splitAtSub at h
    split at h
    · have := List.length_drop pat.length (c :: rest)
      simp only [Option.some.injEq, Prod.mk.injEq] at h
      obtain ⟨h1, h2⟩ := h
      subst h1; subst h2
      simp [List.length_drop]
    · cases hs : splitAtSub pat rest with
      | none => rw [hs] at h; simp at h
      | some pp =>
        obtain ⟨pre1, post1⟩ := pp
        rw [hs] at h
        simp only [Option.some.injEq, Prod.mk.injEq] at h
        obtain ⟨h1, h2⟩ := h
        subst h1; subst h2
        have := ih hs
        simp only [List.length_cons]
        omega

theorem startsWith_length {pat s : Str} (h : startsWith pat s = true) :
    pat.length ≤ s.length := by
  induction pat generalizing s with
  | nil => simp
  | cons p ps ih =>
    cases s with
    | nil => simp [startsWith] at h
    | cons c cs =>
      simp only [startsWith, Bool.and_eq_true] at h
      have := ih h.2
      simp only [List.length_cons]
      omega

theorem dropWhile_length_le (p : Char → Bool) (l : Str) :
    (l.dropWhile p).length ≤ l.length :=
  (List.dropWhile_sublist p).length_le

/-- Fuel-indexed worker of `scanRw`.  The fuel only serves to make the
recursion structural; `scanRw` supplies `s.length`, which never runs out
because every successful step consumes at least one character
(see `scanRwF_fuel_irrelevant`). -/
def scanRwF (step : Str → Option (Str × Str)) : Nat → Str → Str
  | _, [] => []
  | 0, s => s
  | fuel + 1, c :: rest =>
    match step (c :: rest) with
    | some (e, r) => e ++ scanRwF step fuel r
    | none => c :: scanRwF step fuel rest

/-- Generic model of a global JavaScript `replace`: scan left to right; where
`step` matches it returns the replacement text to emit and the unscanned rest;
where it does not, the current character is kept and scanning moves on by one
position.  Matched text and emitted replacements are never rescanned.  The
hypothesis `hstep` certifies that the fuel `s.length` is sufficient. -/
def scanRw (step : Str → Option (Str × Str))
    (hstep : ∀ s e r, step s = some (e, r) → r.length < s.length) (s : Str) : Str :=
  let _ := hstep
  scanRwF step s.length s

theorem scanRwF_fuel_irrelevant (step : Str → Option (Str × Str))
    (hstep : ∀ s e r, step s = some (e, r) → r.length < s.length) :
    ∀ fuel1 fuel2 s, s.length ≤ fuel1 → s.length ≤ fuel2 →
      scanRwF step fuel1 s = scanRwF step fuel2 s := by
  intro fuel1
  induction fuel1 with
  | zero =>
    intro fuel2 s h1 _
    have : s = [] := List.length_eq_zero.mp (Nat.le_zero.mp h1)
    subst this
    cases fuel2 <;> rfl
  | succ f1 ih =>
    intro fuel2 s h1 h2
    cases s with
    | nil => cases fuel2 <;> rfl
    | cons c rest =>
      cases fuel2 with
      | zero => simp at h2
      | succ f2 =>
        simp only [scanRwF]
        cases hst : step (c :: rest) with
        | none =>
          dsimp only
          simp only [List.length_cons] at h1 h2
          rw [ih f2 rest (by omega) (by omega)]
        | some p =>
          obtain ⟨e, r⟩ := p
          dsimp only
          have hr := hstep _ _ _ hst
          simp only [List.length_cons] at h1 h2 hr
          rw [ih f2 r (by omega) (by omega)]

/-- Backtick character (written via its code point). -/
def btick : Char := Char.ofNat 96

/-- Triple-backtick fence delimiter. -/
def tick3 : Str := [btick, btick, btick]

/-- Step of `/```[\s\S]*?```/g -> ''`: at a fence opener, the lazily matched
block extends to the next fence; without a closing fence there is no match. -/
def fencedStep (s : Str) : Option (Str × Str) :=
  if startsWith tick3 s then
    match splitAtSub tick3 (s.drop 3) with
    | some (_, r2) => some ([], r2)
    | none => none
  else none

theorem fencedStep_lt : ∀ s e r, fencedStep s = some (e, r) → r.length < s.length := by
  intro s e r h
  unfold fencedStep at h
  split at h
  · rename_i hsw
    cases hsp : splitAtSub tick3 (s.drop 3) with
    | none => rw [hsp] at h; simp at h
    | some pp =>
      obtain ⟨pre, post⟩ := pp
      rw [hsp] at h
      simp only [Option.some.injEq, Prod.mk.injEq] at h
      obtain ⟨_, h2⟩ := h
      subst h2
      have h3 := splitAtSub_length hsp
      have h4 := startsWith_length hsw
      have h5 := List.length_drop 3 s
      simp only [tick3, List.length_cons, List.length_nil] at h3 h4 ⊢
      omega
  · simp at h

/-- Removal of fenced code blocks (`/```[\s\S]*?```/g -> ''`). -/
def removeFenced : Str → Str := scanRw fencedStep fencedStep_lt

/-- Step of `` /`([^`]+)`/g -> '$1' ``: unwrap one inline-code span with a
non-empty body. -/
def inlineCodeStep : Str → Option (Str × Str) :=
  fun s =>
    match s with
    | c :: rest =>
      if c = btick then
        match rest.dropWhile (fun d => d != btick) with
        | [] => none
        | _ :: r2 =>
          let content := rest.takeWhile (fun d => d != btick)
          if content = [] then none else some (content, r2)
      else none
    | [] => none

theorem inlineCodeStep_lt : ∀ s e r, inlineCodeStep s = some (e, r) → r.length < s.length := by
  intro s e r h
  unfold inlineCodeStep at h
  cases s with
  | nil => simp at h
  | cons c rest =>
    simp only at h
    split at h
    · cases hdw : rest.dropWhile (fun d => d != btick) with
      | nil => rw [hdw] at h; simp at h
      | cons x r2 =>
        rw [hdw] at h
        simp only at h
        split at h
        · simp at h
        · simp only [Option.some.injEq, Prod.mk.injEq] at h
          obtain ⟨_, h2⟩ := h
          subst h2
          have h3 := dropWhile_length_le (fun d => d != btick) rest
          rw [hdw] at h3
          simp only [List.length_cons] at h3 ⊢
          omega
    · simp at h

/-- Removal of inline code markers. -/
def removeInlineCode : Str → Str := scanRw inlineCodeStep inlineCodeStep_lt

/-- Lazy search for the closing `**` of a bold span: collects the content and
fails when a line terminator is reached first (JavaScript `.` does not cross
line terminators). -/
def boldSplit : Str → Option (Str × Str)
  | [] => none
  | c :: r =>
    if c = '*' && startsWith ['*'] r then some ([], r.drop 1)
    else if isLineTerm c then none
    else (boldSplit r).map (fun p => (c :: p.1, p.2))

theorem boldSplit_length {s a b : Str} (h : boldSplit s = some (a, b)) :
    a.length + b.length + 2 = s.length := by
  induction s generalizing a b with
  | nil => simp [boldSplit] at h
  | cons c r ih =>
    unfold boldSplit at h
    split at h
    · rename_i hc
      simp only [Bool.and_eq_true] at hc
      have h1 := startsWith_length hc.2
      simp only [List.length_cons, List.length_nil] at h1
      simp only [Option.some.injEq, Prod.mk.injEq] at h
      obtain ⟨ha, hb⟩ := h
      subst ha; subst hb
      simp only [List.length_nil, List.length_drop, List.length_cons]
      omega
    · split at h
      · simp at h
      · cases hbs : boldSplit r with
        | none => rw [hbs] at h; simp at h
        | some pp =>
          obtain ⟨a1, b1⟩ := pp
          rw [hbs] at h
          simp only [Option.map_some', Option.some.injEq, Prod.mk.injEq] at h
          obtain ⟨ha, hb⟩ := h
          subst ha; subst hb
          have := ih hbs
          simp only [List.length_cons]
          omega

/-- Step of `/\*\*(.*?)\*\*/g -> '$1'`: unwrap one bold span. -/
def boldStep (s : Str) : Option (Str × Str) :=
  if startsWith ['*', '*'] s then boldSplit (s.drop 2) else none

theorem boldStep_lt : ∀ s e r, boldStep s = some (e, r) → r.length < s.length := by
  intro s e r h
  unfold boldStep at h
  split at h
  · rename_i hsw
    have h1 := startsWith_length hsw
    have h2 := boldSplit_length h
    simp only [List.length_cons, List.length_nil, List.length_drop] at h1 h2
    omega
  · simp at h

/-- Removal of bold emphasis markers. -/
def removeBold : Str → Str := scanRw boldStep boldStep_lt

/-- Lazy search for the closing `*` of an italic span: the content may be
empty and may not cross a line terminator. -/
def italSplit : Str → Option (Str × Str)
  | [] => none
  | c :: r =>
    if c = '*' then some ([], r)
    else if isLineTerm c then none
    else (italSplit r).map (fun p => (c :: p.1, p.2))

theorem italSplit_length {s a b : Str} (h : italSplit s = some (a, b)) :
    a.length + b.length + 1 = s.length := by
  induction s generalizing a b with
  | nil => simp [italSplit] at h
  | cons c r ih =>
    unfold italSplit at h
    split at h
    · simp only [Option.some.injEq, Prod.mk.injEq] at h
      obtain ⟨ha, hb⟩ := h
      subst ha; subst hb
      simp
    · split at h
      · simp at h
      · cases hbs : italSplit r with
        | none => rw [hbs] at h; simp at h
        | some pp =>
          obtain ⟨a1, b1⟩ := pp
          rw [hbs] at h
          simp only [Option.map_some', Option.some.injEq, Prod.mk.injEq] at h
          obtain ⟨ha, hb⟩ := h
          subst ha; subst hb
          have := ih hbs
          simp only [List.length_cons]
          omega

/-- Step of `/\*(.*?)\*/g -> '$1'`: unwrap one italic span. -/
def italStep (s : Str) : Option (Str × Str) :=
  if startsWith ['*'] s then italSplit (s.drop 1) else none

theorem italStep_lt : ∀ s e r, italStep s = some (e, r) → r.length < s.length := by
  intro s e r h
  unfold italStep at h
  split at h
  · rename_i hsw
    have h1 := startsWith_length hsw
    have h2 := italSplit_length h
    simp only [List.length_cons, List.length_nil, List.length_drop] at h1 h2
    omega
  · simp at h

/-- Removal of italic emphasis markers. -/
def removeItalic : Str → Str := scanRw italStep italStep_lt

/-- Skip to the first occurrence of character `t` and return what follows it,
or `none` when `t` does not occur.  Models the deterministic match of a
`[^t]*t` fragment. -/
def dropPast (t : Char) (s : Str) : Option Str :=
  match s.dropWhile (fun c => c != t) with
  | [] => none
  | _ :: r => some r

theorem dropPast_lt {t : Char} {s r : Str} (h : dropPast t s = some r) :
    r.length < s.length := by
  unfold dropPast at h
  cases hdw : s.dropWhile (fun c => c != t) with
  | nil => rw [hdw] at h; simp at h
  | cons x r2 =>
    rw [hdw] at h
    simp only [Option.some.injEq] at h
    subst h
    have h3 := dropWhile_length_le (fun c => c != t) s
    rw [hdw] at h3
    simp only [List.length_cons] at h3
    omega

/-- Step for a pattern of shape `X[^Y]*Y`, replaced by the captured content
(`keep = true`, pattern `X([^Y]*)Y -> $1`) or removed entirely
(`keep = false`, replacement `''`). -/
def delimStep (openC closeC : Char) (keep : Bool) (s : Str) : Option (Str × Str) :=
  match s with
  | c :: rest =>
    if c = openC then
      (dropPast closeC rest).map
        (fun r => (if keep then rest.takeWhile (fun d => d != closeC) else [], r))
    else none
  | [] => none

theorem delimStep_lt (openC closeC : Char) (keep : Bool) :
    ∀ s e r, delimStep openC closeC keep s = some (e, r) → r.length < s.length := by
  intro s e r h
  unfold delimStep at h
  cases s with
  | nil => simp at h
  | cons c rest =>
    simp only at h
    split at h
    · cases hdp : dropPast closeC rest with
      | none => rw [hdp] at h; simp at h
      | some r2 =>
        rw [hdp] at h
        simp only [Option.map_some', Option.some.injEq, Prod.mk.injEq] at h
        obtain ⟨_, hr⟩ := h
        subst hr
        have := dropPast_lt hdp
        simp only [List.length_cons]
        omega
    · simp at h

/-- Removal of JSON-like `{...}` structures (`/\{[^}]*\}/g -> ''`). -/
def braceRemove : Str → Str :=
  scanRw (delimStep lbrace rbrace false) (delimStep_lt lbrace rbrace false)

/-- Removal of array-like `[...]` structures (`/\[[^\]]*\]/g -> ''`). -/
def bracketRemove : Str → Str :=
  scanRw (delimStep '[' ']' false) (delimStep_lt '[' ']' false)

/-- Unwrapping of double-quoted spans (`/\"([^\"]*)\"/g -> '$1'`). -/
def quoteUnwrap : Str → Str :=
  scanRw (delimStep '"' '"' true) (delimStep_lt '"' '"' true)

/-- Tail of a match of `\{"[^"]*":\s*"[^"]*"[^}]*\}` after the opening `{"`:
key, colon, optional whitespace, quoted value, junk, closing brace. -/
def jsonTail (rest : Str) : Option Str :=
  (dropPast '"' rest).bind fun r2 =>
    match r2 with
    | ':' :: r3 =>
      match r3.dropWhile isSpaceChar with
      | q2 :: r4 =>
        if q2 = '"' then (dropPast '"' r4).bind fun r5 => dropPast rbrace r5
        else none
      | [] => none
    | _ => none

theorem jsonTail_lt {rest r : Str} (h : jsonTail rest = some r) :
    r.length < rest.length := by
  unfold jsonTail at h
  rw [Option.bind_eq_some] at h
  obtain ⟨r2, h2, h⟩ := h
  have hr2 := dropPast_lt h2
  split at h
  · rename_i r3
    split at h
    · rename_i q2 r4 hdw
      split at h
      · rw [Option.bind_eq_some] at h
        obtain ⟨r5, h5, h6⟩ := h
        have hr5 := dropPast_lt h5
        have hr6 := dropPast_lt h6
        have hr4 := dropWhile_length_le isSpaceChar r3
        rw [hdw] at hr4
        simp only [List.length_cons] at hr4 hr2 ⊢
        omega
      · simp at h
    · simp at h
  · simp at h

/-- Step of `/\{"[^"]*":\s*"[^"]*"[^}]*\}/g -> ''` at one position. -/
def jsonObjStep (s : Str) : Option (Str × Str) :=
  match s with
  | c :: q :: rest =>
    if c = lbrace && q = '"' then (jsonTail rest).map (fun r => (([] : Str), r))
    else none
  | _ => none

theorem jsonObjStep_lt : ∀ s e r, jsonObjStep s = some (e, r) → r.length < s.length := by
  intro s e r h
  unfold jsonObjStep at h
  split at h
  · rename_i c q rest
    split at h
    · cases hjt : jsonTail rest with
      | none => rw [hjt] at h; simp at h
      | some r2 =>
        rw [hjt] at h
        simp only [Option.map_some', Option.some.injEq, Prod.mk.injEq] at h
        obtain ⟨_, hr⟩ := h
        subst hr
        have := jsonTail_lt hjt
        simp only [List.length_cons]
        omega
    · simp at h
  · simp at h

/-- Removal of JSON object artifacts (`/\{"[^"]*":\s*"[^"]*"[^}]*\}/g -> ''`). -/
def removeJsonObjs : Str → Str := scanRw jsonObjStep jsonObjStep_lt

/-- Model of `.*?(?=\n|$)` after a matched literal: the lazy run extends over
non-line-terminator characters up to the next line feed or the end of the
string; a carriage return blocks the lookahead and the whole match fails. -/
def lineTail (s : Str) : Option Str :=
  match s.dropWhile (fun c => !(isLineTerm c)) with
  | [] => some []
  | c :: r => if c = '\n' then some (c :: r) else none

theorem lineTail_le {s r : Str} (h : lineTail s = some r) : r.length ≤ s.length := by
  unfold lineTail at h
  cases hdw : s.dropWhile (fun c => !(isLineTerm c)) with
  | nil => rw [hdw] at h; simp only [Option.some.injEq] at h; subst h; simp
  | cons c r2 =>
    rw [hdw] at h
    simp only at h
    split at h
    · simp only [Option.some.injEq] at h
      subst h
      have h3 := dropWhile_length_le (fun c => !(isLineTerm c)) s
      rw [hdw] at h3
      exact h3
    · simp at h

/-- Step of `lit.*?(?=\n|$) -> ''` at one position. -/
def tail1Step (lit : Str) (s : Str) : Option (Str × Str) :=
  if startsWith lit s then (lineTail (s.drop lit.length)).map (fun r => (([] : Str), r))
  else none

theorem tail1Step_lt (lit : Str) (hlit : lit ≠ []) :
    ∀ s e r, tail1Step lit s = some (e, r) → r.length < s.length := by
  intro s e r h
  unfold tail1Step at h
  split at h
  · rename_i hsw
    cases hlt : lineTail (s.drop lit.length) with
    | none => rw [hlt] at h; simp at h
    | some r2 =>
      rw [hlt] at h
      simp only [Option.map_some', Option.some.injEq, Prod.mk.injEq] at h
      obtain ⟨_, hr⟩ := h
      subst hr
      have h1 := lineTail_le hlt
      have h2 := startsWith_length hsw
      have h4 : lit.length ≠ 0 := by
        intro hz
        exact hlit (List.length_eq_zero.mp hz)
      simp only [List.length_drop] at h1
      omega
  · simp at h

/-- Lazy search (`.*?lit`) for a literal on the current line: skipped
characters may not be line terminators; returns what follows the literal. -/
def findLitInLine (lit : Str) : Str → Option Str
  | [] => none
  | c :: rest =>
    if startsWith lit (c :: rest) then some ((c :: rest).drop lit.length)
    else if isLineTerm c then none
    else findLitInLine lit rest

theorem findLitInLine_le {lit s r : Str} (h : findLitInLine lit s = some r) :
    r.length ≤ s.length := by
  induction s with
  | nil => simp [findLitInLine] at h
  | cons c rest ih =>
    unfold findLitInLine at h
    split at h
    · simp only [Option.some.injEq] at h
      subst h
      simp only [List.length_drop]
      omega
    · split at h
      · simp at h
      · have := ih h
        simp only [List.length_cons]
        omega

/-- Step of `lit1.*?lit2.*?(?=\n|$) -> ''` at one position. -/
def tail2Step (lit1 lit2 : Str) (s : Str) : Option (Str × Str) :=
  if startsWith lit1 s then
    (((findLitInLine lit2 (s.drop lit1.length)).bind lineTail).map
      (fun r => (([] : Str), r)))
  else none

theorem tail2Step_lt (lit1 lit2 : Str) (hlit : lit1 ≠ []) :
    ∀ s e r, tail2Step lit1 lit2 s = some (e, r) → r.length < s.length := by
  intro s e r h
  unfold tail2Step at h
  split at h
  · rename_i hsw
    cases hfb : (findLitInLine lit2 (s.drop lit1.length)).bind lineTail with
    | none => rw [hfb] at h; simp at h
    | some r2 =>
      rw [hfb] at h
      simp only [Option.map_some', Option.some.injEq, Prod.mk.injEq] at h
      obtain ⟨_, hr⟩ := h
      subst hr
      rw [Option.bind_eq_some] at hfb
      obtain ⟨r3, h3, h4⟩ := hfb
      have h5 := findLitInLine_le h3
      have h6 := lineTail_le h4
      have h7 := startsWith_length hsw
      have h8 : lit1.length ≠ 0 := by
        intro hz
        exact hlit (List.length_eq_zero.mp hz)
      simp only [List.length_drop] at h5
      omega
  · simp at h

/-- Removal of `reasoning_details...` artifacts to the end of the line. -/
def removeReasoningTail : Str → Str :=
  scanRw (tail1Step ("reasoning_details".data))
    (tail1Step_lt ("reasoning_details".data) (by decide))

/-- Removal of `format...openai-responses...` artifacts to the end of the line. -/
def removeFormatTail : Str → Str :=
  scanRw (tail2Step ("format".data) ("openai-responses".data))
    (tail2Step_lt ("format".data) ("openai-responses".data) (by decide))

/-- Removal of `usage...total_tokens...` artifacts to the end of the line. -/
def removeUsageTail : Str → Str :=
  scanRw (tail2Step ("usage".data) ("total_tokens".data))
    (tail2Step_lt ("usage".data) ("total_tokens".data) (by decide))

/-- Replacement `/\\\"/g -> '"'`: unescape quotes. -/
def unescapeQuotes : Str → Str
  | '\\' :: c :: r =>
    if c = '"' then '"' :: unescapeQuotes r else '\\' :: unescapeQuotes (c :: r)
  | c :: r => c :: unescapeQuotes r
  | [] => []

/-- Replacement `/\\n/g -> '\n'`: unescape line feeds. -/
def unescapeNewlines : Str → Str
  | '\\' :: c :: r =>
    if c = 'n' then '\n' :: unescapeNewlines r else '\\' :: unescapeNewlines (c :: r)
  | c :: r => c :: unescapeNewlines r
  | [] => []

/-- Markdown stripping of the legacy `templates.ts` `sanitizeInput` (code
blocks, inline code, bold, italic — in source order). -/
def legacySanitizePure (s : Str) : Str :=
  removeItalic (removeBold (removeInlineCode (removeFenced (trimStr s))))

/-- The `cleanJSONArtifacts` method of `templates/MessageSanitizer.ts`:
JSON objects, reasoning/format/usage artifacts, escaped quotes and line
feeds, final trim — in source order. -/
def cleanJSONArtifacts (s : Str) : Str :=
  trimStr (unescapeNewlines (unescapeQuotes
    (removeUsageTail (removeFormatTail (removeReasoningTail (removeJsonObjs s))))))

/-- The `removeMarkdownFormatting` method of `templates/MessageSanitizer.ts`
(seven chained replacements, in source order). -/
def removeMarkdownFormatting (s : Str) : Str :=
  quoteUnwrap (bracketRemove (braceRemove
    (removeItalic (removeBold (removeInlineCode (removeFenced s))))))

/-- The modular `MessageSanitizer.sanitize` after its input guard. -/
def modularSanitizePure (s : Str) : Str :=
  removeMarkdownFormatting (cleanJSONArtifacts (trimStr s))

/-- Error message of the sanitizer input guard. -/
def invalidInputMsg : Str := "Invalid input: message must be a non-empty string".data

/-- Error message of the empty-lines check of both processors. -/
def emptyGeneratedMsg : Str := "Generated message is empty".data

namespace MessageSanitizer

/-- The modular `MessageSanitizer.sanitize`: the guard rejects exactly the
falsy input (the empty string), then JSON artifacts and markdown are
stripped. -/
def sanitize (raw : Str) : Except Str Str :=
  if raw = [] then Except.error invalidInputMsg
  else Except.ok (modularSanitizePure raw)

/-- The `parseLines` method shared by both sanitizer copies: split on line
feeds, trim every line, drop empty lines. -/
def parseLines (msg : Str) : List Str :=
  ((splitNL msg).map trimStr).filter (fun l => !l.isEmpty)

end MessageSanitizer

/-- Commit styles supported by the configuration. -/
inductive CommitStyle where
  | conventional
  | freeform
deriving DecidableEq, Repr

/-- Validation result record (`{ valid, errors }`). -/
structure ValidationResult where
  valid : Bool
  errors : List Str
deriving DecidableEq, Repr

/-- The ten conventional commit types (`CONVENTIONAL_TYPES`). -/
def CONVENTIONAL_TYPES : List Str :=
  ["feat".data, "fix".data, "docs".data, "style".data, "refactor".data,
   "test".data, "chore".data, "perf".data, "ci".data, "build".data]

/-- Subject length budget (`SUBJECT_MAX_LENGTH`). -/
def SUBJECT_MAX_LENGTH : Nat := 72

/-- Keyword table for commit-type detection (`TYPE_DETECTION_MAP`), in source
insertion order. -/
def TYPE_DETECTION_MAP : List (Str × List Str) :=
  [("feat".data, ["add".data, "implement".data, "create".data, "introduce".data]),
   ("fix".data, ["fix".data, "resolve".data, "correct".data, "repair".data, "patch".data]),
   ("docs".data, ["doc".data, "readme".data, "comment".data, "documentation".data]),
   ("refactor".data, ["refactor".data, "restructure".data, "reorganize".data, "rewrite".data]),
   ("test".data, ["test".data, "spec".data, "testing".data]),
   ("style".data, ["style".data, "format".data, "lint".data, "prettier".data]),
   ("perf".data, ["performance".data, "optimize".data, "speed".data, "faster".data]),
   ("build".data, ["build".data, "compile".data, "bundle".data, "webpack".data]),
   ("ci".data, ["ci".data, "pipeline".data, "workflow".data, "github".data, "actions".data])]

/-- Test of `: ` followed by at least one `.`-matchable character — the
mandatory tail of `CONVENTIONAL_REGEX` after the type (and optional scope). -/
def colonDescTest (r : Str) : Bool :=
  startsWith (':' :: ' ' :: []) r &&
    (match r.drop 2 with
     | c :: _ => !(isLineTerm c)
     | [] => false)

/-- Possible remainders after a `\(.+\)` scope in `CONVENTIONAL_REGEX`: every
closing parenthesis preceded by at least one non-line-terminator content
character yields a candidate remainder (greedy matching with backtracking
tries all of them). -/
def scopeRests : Str → Nat → List Str
  | [], _ => []
  | c :: rest, idx =>
    if isLineTerm c then []
    else
      (if c = ')' && idx ≥ 1 then [rest] else []) ++ scopeRests rest (idx + 1)

/-- Executable model of `CONVENTIONAL_REGEX.test`, the anchored, case-sensitive
`^(feat|fix|docs|style|refactor|test|chore|perf|ci|build)(\(.+\))?: .+`. -/
def convRegexTest (s : Str) : Bool :=
  CONVENTIONAL_TYPES.any fun ty =>
    startsWith ty s &&
      (let after := s.drop ty.length
       colonDescTest after ||
         (match after with
          | c :: r => c = '(' && (scopeRests r 0).any colonDescTest
          | [] => false))

/-- First result of `f` over a list — the semantics of an ordered regex
alternation and of the `for ... of Object.entries` loop. -/
def firstSome {α β : Type} : List α → (α → Option β) → Option β
  | [], _ => none
  | a :: as, f =>
    match f a with
    | some b => some b
    | none => firstSome as f

/-- The eleven tags accepted by the prefix-stripping regex of
`removeTypeFromSubject` and of the body formatter (the ten types plus
`revert`). -/
def STRIP_TAGS : List Str :=
  ["feat".data, "fix".data, "docs".data, "style".data, "refactor".data,
   "test".data, "chore".data, "perf".data, "ci".data, "build".data, "revert".data]

/-- Match of `\s*:\s*`: optional whitespace, a colon, optional whitespace;
returns the remainder. -/
def colonWsRest (r : Str) : Option Str :=
  match r.dropWhile isSpaceChar with
  | c :: r2 => if c = ':' then some (r2.dropWhile isSpaceChar) else none
  | [] => none

/-- Match of one alternative `ty(\([^)]*\))?\s*:\s*` of the case-insensitive
prefix-stripping regex; returns the remainder after the match.  When the
optional scope is present but no colon follows it, the no-scope alternative
cannot succeed either (the colon part would have to match at `(`), so no
fallback is attempted. -/
def tryTagRest (ty : Str) (s : Str) : Option Str :=
  if startsWith ty (lowerStr s) then
    let after := s.drop ty.length
    match after with
    | c :: rest =>
      if c = '(' then
        match rest.dropWhile (fun d => d != ')') with
        | [] => none
        | _ :: r2 => colonWsRest r2
      else colonWsRest after
    | [] => colonWsRest after
  else none

/-- Removal of a leading conventional tag
(`^(feat|...|revert)(\([^)]*\))?\s*:\s*` replaced by the empty string). -/
def stripConvTag (s : Str) : Str :=
  match firstSome STRIP_TAGS (fun ty => tryTagRest ty s) with
  | some r => r
  | none => s

/-- Removal of a leading detected-type keyword (`^(kw1|kw2|...)\s+` replaced
by the empty string, case-insensitive, alternatives tried in order). -/
def stripKeywords (keywords : List Str) (s : Str) : Str :=
  match firstSome keywords (fun kw =>
    if startsWith kw (lowerStr s) then
      match s.drop kw.length with
      | c :: rest =>
        if isSpaceChar c then some (rest.dropWhile isSpaceChar) else none
      | [] => none
    else none) with
  | some r => r
  | none => s

/-- The `detectCommitType` method (identical in both pipelines): first type of
the ordered table with a substring hit on the lower-cased subject, defaulting
to `feat`. -/
def detectCommitType (subject : Str) : Str :=
  let lowerSubject := lowerStr subject
  match firstSome TYPE_DETECTION_MAP (fun p =>
    if p.2.any (fun keyword => isSubstr keyword lowerSubject) then some p.1 else none) with
  | some ty => ty
  | none => "feat".data

/-- Keyword list of a detected type (`TYPE_DETECTION_MAP[detectedType] || []`). -/
def keywordsOf (ty : Str) : List Str :=
  match firstSome TYPE_DETECTION_MAP (fun p => if p.1 = ty then some p.2 else none) with
  | some kws => kws
  | none => []

/-- The `removeTypeFromSubject` method (identical in both pipelines):
conventional tag first, then a leading keyword of the detected type. -/
def removeTypeFromSubject (subject : Str) (detectedType : Str) : Str :=
  let cleaned := stripConvTag subject
  match keywordsOf detectedType with
  | [] => cleaned
  | kws => stripKeywords kws cleaned

/-- Stop list of the conventional summarizer's context search. -/
def CONTEXT_STOP_WORDS : List Str :=
  ["from".data, "with".data, "that".data, "this".data, "when".data,
   "where".data, "they".data, "have".data, "been".data]

/-- Technical terms preferred as summary context. -/
def TECHNICAL_TERMS : List Str :=
  ["git".data, "commit".data, "body".data, "subject".data, "template".data,
   "format".data, "validation".data, "config".data, "api".data,
   "service".data, "utils".data]

/-- Action words recognised by both summarizers. -/
def ACTION_WORDS : List Str :=
  ["add".data, "remove".data, "update".data, "fix".data, "improve".data,
   "refactor".data, "implement".data, "create".data, "delete".data, "enhance".data]

/-- The action-word search of `extractSummary`
(`words.find(word => actionWords.includes(word)) || 'update'`). -/
def summaryAction (words : List Str) : Str :=
  match words.find? (fun word => ACTION_WORDS.contains word) with
  | some w => w
  | none => "update".data

/-- The context-word search of `extractSummary`: technical terms first, then
the first word longer than 4 characters outside the stop list, then the
literal `functionality`. -/
def summaryContext (words : List Str) : Str :=
  match TECHNICAL_TERMS.find? (fun term => words.contains term) with
  | some t => t
  | none =>
    match words.find? (fun word =>
      word.length > 4 && !(CONTEXT_STOP_WORDS.contains word)) with
    | some w => w
    | none => "functionality".data

/-- The `extractSummary` logic (present verbatim in the modular
`ConventionalFormatter` and inlined in the legacy `createSummarySubject`):
action word, context word with technical terms preferred, and two
special-cased phrasings. -/
def extractSummary (cleanedMessage : Str) : Str :=
  let words := splitWs (lowerStr cleanedMessage)
  let action := summaryAction words
  let context := summaryContext words
  if words.contains ("git".data) && words.contains ("commit".data) then
    action ++ ' ' :: "git commit ".data ++
      (if words.contains ("body".data) then "body".data
       else if words.contains ("subject".data) then "subject".data
       else "handling".data)
  else if words.contains ("template".data) || words.contains ("format".data) then
    action ++ ' ' :: context ++ ' ' ::
      (if words.contains ("format".data) then "formatting".data else "template".data)
  else
    action ++ ' ' :: context

/-- Bullet characters of the replacement `/^[â€¢*+]\s*/` exactly as stored in
the source files: the class holds the three characters of a mis-decoded
bullet (`â`, `€`, `¢`) plus `*` and `+` — not the bullet `•` itself. -/
def BULLET_CLASS : List Char := ['â', '€', '¢', '*', '+']

/-- Replacement `/^[â€¢*+]\s*/ -> '- '` on one line. -/
def bulletRe (line : Str) : Str :=
  match line with
  | c :: rest =>
    if BULLET_CLASS.contains c then '-' :: ' ' :: rest.dropWhile isSpaceChar
    else line
  | [] => line

/-- Replacement `/^\d+\.\s*/ -> '- '` on one line. -/
def numDotRe (line : Str) : Str :=
  if (line.takeWhile Char.isDigit).isEmpty then line
  else
    match line.dropWhile Char.isDigit with
    | c :: rest =>
      if c = '.' then '-' :: ' ' :: rest.dropWhile isSpaceChar else line
    | [] => line

/-- The conventional body-line transformation (`processBodyLines` of
`ConventionalFormatter`, and the identical loop body of the legacy
`formatBody`): strip a leaked conventional tag, normalize bullet markers, and
prepend `- ` to lines that look like list items. -/
def convProcessBodyLine (line : Str) : Str :=
  let line := stripConvTag line
  let line := numDotRe (bulletRe line)
  if !line.isEmpty && !(startsWith ['-'] line) && !(startsWith [' '] line) &&
      (isSubstr ("add".data) line || isSubstr ("fix".data) line ||
        isSubstr ("update".data) line) then
    '-' :: ' ' :: line
  else line

/-- The freeform body-line transformation (`processBodyLines` of
`FreeformFormatter`): bullet normalization only. -/
def freeformProcessBodyLine (line : Str) : Str :=
  numDotRe (bulletRe line)

namespace ConventionalFormatter

/-- The `ensureConventionalFormat` method of the modular
`ConventionalFormatter`. -/
def ensureConventionalFormat (subject : Str) : Str :=
  let detectedType := detectCommitType subject
  let cleanedSubject := removeTypeFromSubject subject detectedType
  let formattedSubject :=
    lowercaseFirst (if cleanedSubject.isEmpty then "update code".data else cleanedSubject)
  detectedType ++ ':' :: ' ' :: formattedSubject

/-- The `formatSubject` method of the modular `ConventionalFormatter`. -/
def formatSubject (subject : Str) : Str :=
  let subject := removeTrailingPeriod subject
  if convRegexTest subject then subject
  else ensureConventionalFormat subject

/-- The `createSummarySubject` method of the modular
`ConventionalFormatter`. -/
def createSummarySubject (longMessage : Str) : Str :=
  let detectedType := detectCommitType longMessage
  let cleanedMessage := removeTypeFromSubject longMessage detectedType
  let summary := extractSummary cleanedMessage
  let formattedSummary := lowercaseFirst summary
  detectedType ++ ':' :: ' ' :: formattedSummary

end ConventionalFormatter

/-- Stop list of the freeform summarizer. -/
def FREEFORM_STOP_WORDS : List Str :=
  ["from".data, "with".data, "that".data, "this".data, "when".data,
   "where".data, "they".data, "have".data, "been".data, "will".data,
   "were".data, "are".data]

/-- JavaScript `join(' ')` over a list of words. -/
def joinSp : List Str → Str
  | [] => []
  | [l] => l
  | l :: ls => l ++ ' ' :: joinSp ls

namespace FreeformFormatter

/-- The `formatSubject` method of the modular `FreeformFormatter`. -/
def formatSubject (subject : Str) : Str :=
  capitalizeFirst (removeTrailingPeriod subject)

/-- The `createSummarySubject` method of the modular `FreeformFormatter`.
The source computes an action word with default `Update` but never uses it:
when the key-word filter selects nothing the summary is the empty string. -/
def createSummarySubject (longMessage : Str) : Str :=
  let words := splitWs (lowerStr longMessage)
  let _action :=
    match words.find? (fun word => ACTION_WORDS.contains word) with
    | some w => w
    | none => "Update".data
  let summary := trimStr longMessage
  let summary :=
    if summary.length > 50 then
      joinSp ((words.filter (fun word =>
        word.length > 3 && !(FREEFORM_STOP_WORDS.contains word))).take 6)
    else summary
  capitalizeFirst summary

end FreeformFormatter

/-- Dispatch of `formatSubject` by configured style (`FormatterFactory`). -/
def formatSubjectSt (style : CommitStyle) (subject : Str) : Str :=
  match style with
  | .conventional => ConventionalFormatter.formatSubject subject
  | .freeform => FreeformFormatter.formatSubject subject

/-- Dispatch of `createSummarySubject` by configured style. -/
def createSummarySt (style : CommitStyle) (longMessage : Str) : Str :=
  match style with
  | .conventional => ConventionalFormatter.createSummarySubject longMessage
  | .freeform => FreeformFormatter.createSummarySubject longMessage

/-- Dispatch of the per-line body transformation by configured style. -/
def processBodyLineSt (style : CommitStyle) (line : Str) : Str :=
  match style with
  | .conventional => convProcessBodyLine line
  | .freeform => freeformProcessBodyLine line

/-- The `formatBody` method of the modular `BaseFormatter`: split into trimmed
non-empty lines, transform each, rejoin. -/
def formatBody (style : CommitStyle) (body : Str) : Str :=
  if (trimStr body).isEmpty then []
  else
    joinNL ((((splitNL body).map trimStr).filter (fun l => !l.isEmpty)).map
      (processBodyLineSt style))

/-- The `format` method of the modular `BaseFormatter`: summarize oversized
subjects, format the rest, and join subject and formatted body with a blank
line. -/
def baseFormat (style : CommitStyle) (subject : Str) (body : Option Str) : Str :=
  let formattedSubject :=
    if subject.length > SUBJECT_MAX_LENGTH then createSummarySt style subject
    else formatSubjectSt style subject
  let formattedBody :=
    match body with
    | some b => formatBody style b
    | none => []
  if formattedBody.isEmpty then formattedSubject
  else formattedSubject ++ '\n' :: '\n' :: formattedBody

namespace CommitMessageProcessor

/-- The `format` method of the modular `CommitMessageProcessor`: sanitize,
parse lines, fail when empty, split subject candidate and body, delegate to
the style formatter. -/
def format (style : CommitStyle) (raw : Str) : Except Str Str :=
  match MessageSanitizer.sanitize raw with
  | Except.error e => Except.error e
  | Except.ok sanitizedMessage =>
    match MessageSanitizer.parseLines sanitizedMessage with
    | [] => Except.error emptyGeneratedMsg
    | firstLine :: restLines =>
      let body : Option Str :=
        if restLines.isEmpty then none else some (trimStr (joinNL restLines))
      Except.ok (baseFormat style firstLine body)

end CommitMessageProcessor

/-- Subject extraction of `BaseValidator.getSubjectLine`
(`message.split('\n')[0] || ''`). -/
def getSubjectLine (message : Str) : Str :=
  match splitNL message with
  | l :: _ => l
  | [] => []

/-- The five violation strings of the conventional validator. -/
def lengthViolation : Str := "Subject line exceeds 72 characters".data

/-- Violation reported for an empty subject line. -/
def emptyViolation : Str := "Subject line is empty".data

/-- Violation reported when the conventional pattern fails. -/
def formatViolation : Str := "Subject line does not follow Conventional Commits format".data

/-- Violation reported for an uppercase description. -/
def capitalViolationMsg : Str := "Description should start with lowercase letter".data

/-- Violation reported for a trailing period. -/
def periodViolation : Str := "Subject line should not end with a period".data

/-- The `validateBasicStructure` method of `BaseValidator`: length and
non-emptiness, each appended independently. -/
def validateBasicStructure (subject : Str) : List Str :=
  (if subject.length > SUBJECT_MAX_LENGTH then [lengthViolation] else []) ++
    (if subject.length = 0 then [emptyViolation] else [])

/-- Match-and-test of `/^[^:]+: (.)/` with
`match[1] !== match[1].toLowerCase()`: a non-empty colon-free head, `: `, and
a capturable character that changes under lower-casing. -/
def capitalViolation (subject : Str) : Bool :=
  let pre := subject.takeWhile (fun c => c != ':')
  match subject.dropWhile (fun c => c != ':') with
  | c1 :: c2 :: c3 :: _ =>
    !pre.isEmpty && c1 = ':' && c2 = ' ' && !(isLineTerm c3) && lowerChar c3 != c3
  | _ => false

/-- JavaScript `endsWith('.')`. -/
def endsWithDot (s : Str) : Bool :=
  match s.reverse with
  | '.' :: _ => true
  | _ => false

namespace ConventionalValidator

/-- The `validate` method of the modular `ConventionalValidator`: basic
structure, pattern, capitalization, trailing period — all independent. -/
def validate (message : Str) : ValidationResult :=
  let subject := getSubjectLine message
  let errors :=
    validateBasicStructure subject ++
      (if !(convRegexTest subject) then [formatViolation] else []) ++
      (if capitalViolation subject then [capitalViolationMsg] else []) ++
      (if endsWithDot subject then [periodViolation] else [])
  { valid := errors.isEmpty, errors := errors }

end ConventionalValidator

namespace FreeformValidator

/-- The `validate` method of the modular `FreeformValidator`: basic structure
only. -/
def validate (message : Str) : ValidationResult :=
  let subject := getSubjectLine message
  let errors := validateBasicStructure subject
  { valid := errors.isEmpty, errors := errors }

end FreeformValidator

/-- Dispatch of validation by configured style (`ValidatorFactory`, used by
`CommitMessageProcessor.validate`). -/
def validateSt (style : CommitStyle) (message : Str) : ValidationResult :=
  match style with
  | .conventional => ConventionalValidator.validate message
  | .freeform => FreeformValidator.validate message

namespace Legacy

/-- The `formatSubjectDescription` method of the legacy
`CommitMessageFormatter`: empty becomes `update code`, otherwise the first
letter is lower-cased. -/
def formatSubjectDescription (subject : Str) : Str :=
  if subject.isEmpty then "update code".data else lowercaseFirst subject

/-- The `ensureConventionalFormat` method of the legacy formatter (the
already-conventional test lives here, unlike the modular copy). -/
def ensureConventionalFormat (subject : Str) : Str :=
  if convRegexTest subject then subject
  else
    let detectedType := detectCommitType subject
    let cleanedSubject := removeTypeFromSubject subject detectedType
    detectedType ++ ':' :: ' ' :: formatSubjectDescription cleanedSubject

/-- The `formatSubjectLine` method of the legacy formatter: trailing period
removal for every style, conventional shaping only for the conventional
style (the freeform subject is not capitalized). -/
def formatSubjectLine (style : CommitStyle) (subject : Str) : Str :=
  let subject := removeTrailingPeriod subject
  match style with
  | CommitStyle.conventional => ensureConventionalFormat subject
  | CommitStyle.freeform => subject

/-- The `createSummarySubject` method of the legacy formatter: identical word
heuristics, but the type tag is only prefixed for the conventional style and
the empty-summary fallback of `formatSubjectDescription` is applied. -/
def createSummarySubject (style : CommitStyle) (longMessage : Str) : Str :=
  let detectedType := detectCommitType longMessage
  let cleanedMessage := removeTypeFromSubject longMessage detectedType
  let summary := extractSummary cleanedMessage
  let formattedSummary := formatSubjectDescription summary
  match style with
  | CommitStyle.conventional => detectedType ++ ':' :: ' ' :: formattedSummary
  | CommitStyle.freeform => formattedSummary

/-- The `formatBody` method of the legacy formatter: applied for every style,
with the conventional per-line transformation. -/
def formatBody (body : Str) : Str :=
  if (trimStr body).isEmpty then []
  else
    joinNL ((((splitNL body).map trimStr).filter (fun l => !l.isEmpty)).map
      convProcessBodyLine)

/-- The `format` method of the legacy `CommitMessageFormatter`: inline
sanitizer, line parsing, and — unlike the modular pipeline — the original
over-long first line is moved into the body before body formatting. -/
def format (style : CommitStyle) (rawMessage : Str) : Except Str Str :=
  if rawMessage = [] then Except.error invalidInputMsg
  else
    let sanitizedMessage := legacySanitizePure rawMessage
    match MessageSanitizer.parseLines sanitizedMessage with
    | [] => Except.error emptyGeneratedMsg
    | firstLine :: restLines =>
      let originalBody := if restLines.isEmpty then [] else trimStr (joinNL restLines)
      let sb :=
        if firstLine.length > SUBJECT_MAX_LENGTH then
          (createSummarySubject style firstLine,
            if originalBody.isEmpty then firstLine
            else firstLine ++ '\n' :: '\n' :: originalBody)
        else (formatSubjectLine style firstLine, originalBody)
      let body := if sb.2.isEmpty then [] else formatBody sb.2
      Except.ok (if body.isEmpty then sb.1 else sb.1 ++ '\n' :: '\n' :: body)

/-- The `validate` method of the legacy `CommitMessageFormatter`: basic
checks, conventional-only pattern and capitalization checks, and a trailing
period check applied for every style. -/
def validate (style : CommitStyle) (message : Str) : ValidationResult :=
  let subject :=
    match splitNL message with
    | l :: _ => l
    | [] => []
  let errors :=
    (if subject.length > SUBJECT_MAX_LENGTH then [lengthViolation] else []) ++
      (if subject.length = 0 then [emptyViolation] else []) ++
      (match style with
       | CommitStyle.conventional =>
         (if !(convRegexTest subject) then [formatViolation] else []) ++
           (if capitalViolation subject then [capitalViolationMsg] else [])
       | CommitStyle.freeform => []) ++
      (if endsWithDot subject then [periodViolation] else [])
  { valid := errors.isEmpty, errors := errors }

end Legacy

instance {α β : Type} [DecidableEq α] [DecidableEq β] : DecidableEq (Except α β) :=
  fun a b =>
    match a, b with
    | Except.ok x, Except.ok y =>
      if h : x = y then Decidable.isTrue (by rw [h])
      else Decidable.isFalse (by simp [h])
    | Except.error x, Except.error y =>
      if h : x = y then Decidable.isTrue (by rw [h])
      else Decidable.isFalse (by simp [h])
    | Except.ok _, Except.error _ => Decidable.isFalse (by simp)
    | Except.error _, Except.ok _ => Decidable.isFalse (by simp)

/-- Strings free of line feeds: the subject-line extraction of the validators
acts as the identity on them. -/
def SaneStr (s : Str) : Prop := ∀ c ∈ s, c ≠ '\n'

/-- Strings whose first character (if any) is not whitespace. -/
def HeadNW (s : Str) : Prop := ∀ c t, s = c :: t → isSpaceChar c = false

theorem lowerChar_space (c : Char) : isSpaceChar (lowerChar c) = isSpaceChar c := by
  unfold lowerChar
  split <;> first | rfl | decide

theorem upperChar_space (c : Char) : isSpaceChar (upperChar c) = isSpaceChar c := by
  unfold upperChar
  split <;> first | rfl | decide

theorem ne_nl_of_not_ws {c : Char} (h : isSpaceChar c = false) : c ≠ '\n' := by
  intro hc
  subst hc
  simp [isSpaceChar] at h

theorem not_lt_of_not_ws {c : Char} (h : isSpaceChar c = false) : isLineTerm c = false := by
  by_cases h1 : c = '\n'
  · subst h1; simp [isSpaceChar] at h
  · by_cases h2 : c = '\r'
    · subst h2; simp [isSpaceChar] at h
    · simp [isLineTerm, h1, h2]

theorem dropWhile_head {p : Char → Bool} {l : Str} {c : Char} {r : Str}
    (h : l.dropWhile p = c :: r) : p c = false := by
  induction l with
  | nil => simp at h
  | cons d t ih =>
    rw [List.dropWhile_cons] at h
    split at h
    · exact ih h
    · rename_i hd
      simp only [List.cons.injEq] at h
      obtain ⟨h1, _⟩ := h
      subst h1
      simpa using hd

theorem dropWhile_eq_self_of_head {p : Char → Bool} {l : Str}
    (h : ∀ c t, l = c :: t → p c = false) : l.dropWhile p = l := by
  cases l with
  | nil => rfl
  | cons c t =>
    rw [List.dropWhile_cons, if_neg]
    simp [h c t rfl]

theorem dropWhile_all {p : Char → Bool} {l : Str} (h : ∀ c ∈ l, p c = true) :
    l.dropWhile p = [] := by
  induction l with
  | nil => rfl
  | cons c t ih =>
    rw [List.dropWhile_cons, if_pos (h c (by simp))]
    exact ih (fun d hd => h d (by simp [hd]))

theorem mem_trimStr {s : Str} {c : Char} (h : c ∈ trimStr s) : c ∈ s := by
  unfold trimStr at h
  rw [List.mem_reverse] at h
  have h2 := (List.dropWhile_sublist isSpaceChar).mem h
  rw [List.mem_reverse] at h2
  exact (List.dropWhile_sublist isSpaceChar).mem h2

theorem trimStr_prefix (s : Str) : trimStr s <+: s.dropWhile isSpaceChar := by
  unfold trimStr
  rw [← List.reverse_suffix]
  simp only [List.reverse_reverse]
  exact List.dropWhile_suffix isSpaceChar

theorem trimStr_head {s : Str} : HeadNW (trimStr s) := by
  intro c t h
  obtain ⟨tail, htail⟩ := trimStr_prefix s
  rw [h] at htail
  exact dropWhile_head htail.symm

theorem trimStr_reverse_eq (s : Str) :
    (trimStr s).reverse = (s.dropWhile isSpaceChar).reverse.dropWhile isSpaceChar := by
  simp [trimStr]

theorem trimStr_idem (s : Str) : trimStr (trimStr s) = trimStr s := by
  have h1 : (trimStr s).dropWhile isSpaceChar = trimStr s :=
    dropWhile_eq_self_of_head (fun c t h => trimStr_head c t h)
  have h3 : ((trimStr s).reverse).dropWhile isSpaceChar = (trimStr s).reverse := by
    rw [trimStr_reverse_eq]
    exact dropWhile_eq_self_of_head
      (fun c t h => dropWhile_head (l := (s.dropWhile isSpaceChar).reverse) h)
  show (((trimStr s).dropWhile isSpaceChar).reverse.dropWhile isSpaceChar).reverse = trimStr s
  rw [h1, h3, List.reverse_reverse]

theorem trimStr_all_ws {s : Str} (h : ∀ c ∈ s, isSpaceChar c = true) :
    trimStr s = [] := by
  unfold trimStr
  rw [dropWhile_all h]
  rfl

theorem splitNL_ne_nil (s : Str) : splitNL s ≠ [] := by
  induction s with
  | nil => simp [splitNL]
  | cons c rest ih =>
    unfold splitNL
    split
    · simp
    · cases h : splitNL rest with
      | nil => simp
      | cons l ls => simp

theorem mem_splitNL_no_nl {s : Str} {l : Str} (hl : l ∈ splitNL s) :
    ∀ c ∈ l, c ≠ '\n' := by
  induction s generalizing l with
  | nil =>
    simp only [splitNL, List.mem_singleton] at hl
    subst hl
    simp
  | cons c rest ih =>
    unfold splitNL at hl
    split at hl
    · rcases List.mem_cons.mp hl with h | h
      · subst h; simp
      · exact ih h
    · rename_i hc
      cases hrest : splitNL rest with
      | nil => exact absurd hrest (splitNL_ne_nil rest)
      | cons l0 ls =>
        rw [hrest] at hl
        rcases List.mem_cons.mp hl with h | h
        · subst h
          intro d hd
          rcases List.mem_cons.mp hd with h2 | h2
          · subst h2; exact hc
          · exact ih (by rw [hrest]; exact List.mem_cons_self l0 ls) d h2
        · exact ih (by rw [hrest]; exact List.mem_cons_of_mem l0 h)

theorem splitNL_no_nl_eq {s : Str} (h : ∀ c ∈ s, c ≠ '\n') : splitNL s = [s] := by
  induction s with
  | nil => rfl
  | cons c rest ih =>
    unfold splitNL
    rw [if_neg (h c (by simp))]
    rw [ih (fun d hd => h d (by simp [hd]))]

theorem splitNL_append {a b : Str} (h : ∀ c ∈ a, c ≠ '\n') :
    splitNL (a ++ '\n' :: b) = a :: splitNL b := by
  induction a with
  | nil => simp [splitNL]
  | cons c rest ih =>
    have hc : c ≠ '\n' := h c (by simp)
    have ih2 := ih (fun d hd => h d (by simp [hd]))
    simp only [List.cons_append, splitNL, if_neg hc, ih2]
    have ih3 : splitNL (rest.append ('\n' :: b)) = rest :: splitNL b := ih2
    rw [ih3]

theorem getSubjectLine_of_sane {a : Str} (h : SaneStr a) : getSubjectLine a = a := by
  unfold getSubjectLine
  rw [splitNL_no_nl_eq h]

theorem getSubjectLine_append {a b : Str} (h : SaneStr a) :
    getSubjectLine (a ++ '\n' :: b) = a := by
  unfold getSubjectLine
  rw [splitNL_append h]

theorem parseLines_mem {m l : Str} (h : l ∈ MessageSanitizer.parseLines m) :
    l ≠ [] ∧ SaneStr l ∧ HeadNW l ∧ trimStr l = l := by
  unfold MessageSanitizer.parseLines at h
  have h1 := List.mem_filter.mp h
  obtain ⟨hmem, hne⟩ := h1
  obtain ⟨x, hx, hxl⟩ := List.mem_map.mp hmem
  subst hxl
  refine ⟨by simpa using hne, ?_, trimStr_head, trimStr_idem x⟩
  intro c hc
  exact mem_splitNL_no_nl hx c (mem_trimStr hc)

theorem firstSome_eq_some {α β : Type} {l : List α} {f : α → Option β} {b : β}
    (h : firstSome l f = some b) : ∃ a ∈ l, f a = some b := by
  induction l with
  | nil => simp [firstSome] at h
  | cons a as ih =>
    unfold firstSome at h
    cases hfa : f a with
    | some b2 =>
      rw [hfa] at h
      simp only [Option.some.injEq] at h
      subst h
      exact ⟨a, by simp, hfa⟩
    | none =>
      rw [hfa] at h
      obtain ⟨a2, ha2, hfa2⟩ := ih h
      exact ⟨a2, by simp [ha2], hfa2⟩

theorem wsplit_wskip_mem :
    ∀ n s cur, s.length ≤ n →
      ((∀ c ∈ cur, isSpaceChar c = false) →
        ∀ l ∈ wsplit s cur, ∀ c ∈ l, isSpaceChar c = false) ∧
      (∀ l ∈ wskip s, ∀ c ∈ l, isSpaceChar c = false) := by
  intro n
  induction n with
  | zero =>
    intro s cur hle
    have : s = [] := List.length_eq_zero.mp (Nat.le_zero.mp hle)
    subst this
    constructor
    · intro hcur l hl c hc
      simp only [wsplit, List.mem_singleton] at hl
      subst hl
      exact hcur c (List.mem_reverse.mp hc)
    · intro l hl c hc
      simp only [wskip, List.mem_singleton] at hl
      subst hl
      simp at hc
  | succ k ih =>
    intro s cur hle
    cases s with
    | nil => exact ih [] cur (by simp)
    | cons d r =>
      simp only [List.length_cons] at hle
      constructor
      · intro hcur l hl c hc
        unfold wsplit at hl
        split at hl
        · rcases List.mem_cons.mp hl with h | h
          · subst h
            exact hcur c (List.mem_reverse.mp hc)
          · exact (ih r cur (by omega)).2 l h c hc
        · rename_i hd
          refine (ih r (d :: cur) (by omega)).1 ?_ l hl c hc
          intro e he
          rcases List.mem_cons.mp he with h | h
          · subst h; simpa using hd
          · exact hcur e h
      · intro l hl c hc
        unfold wskip at hl
        split at hl
        · exact (ih r cur (by omega)).2 l hl c hc
        · rename_i hd
          refine (ih r [d] (by omega)).1 ?_ l hl c hc
          intro e he
          rcases List.mem_cons.mp he with h | h
          · subst h; simpa using hd
          · simp at h

theorem splitWs_mem {m w : Str} (h : w ∈ splitWs m) :
    ∀ c ∈ w, isSpaceChar c = false := by
  exact (wsplit_wskip_mem m.length m [] (Nat.le_refl _)).1 (by simp) w h

theorem removeTrailingPeriod_cases (s : Str) :
    removeTrailingPeriod s = s ∨
      ∃ r, s.reverse = '.' :: r ∧ removeTrailingPeriod s = r.reverse := by
  unfold removeTrailingPeriod
  split
  · rename_i r heq
    exact Or.inr ⟨r, heq, rfl⟩
  · exact Or.inl rfl

theorem removeTrailingPeriod_length (s : Str) :
    (removeTrailingPeriod s).length ≤ s.length := by
  rcases removeTrailingPeriod_cases s with h | ⟨r, hr, h⟩
  · rw [h]
  · rw [h]
    have : s.reverse.length = r.length + 1 := by rw [hr]; simp
    simp only [List.length_reverse] at this ⊢
    omega

theorem removeTrailingPeriod_mem {s : Str} {c : Char}
    (h : c ∈ removeTrailingPeriod s) : c ∈ s := by
  rcases removeTrailingPeriod_cases s with h2 | ⟨r, hr, h2⟩
  · rwa [h2] at h
  · rw [h2] at h
    have h3 : c ∈ s.reverse := by
      rw [hr]
      exact List.mem_cons_of_mem _ (List.mem_reverse.mp h)
    exact List.mem_reverse.mp h3

theorem removeTrailingPeriod_head {s : Str} (hs : HeadNW s) :
    HeadNW (removeTrailingPeriod s) := by
  intro c t h
  rcases removeTrailingPeriod_cases s with h2 | ⟨r, hr, h2⟩
  · exact hs c t (by rw [← h2, h])
  · rw [h2] at h
    have hsr : s = r.reverse ++ ['.'] := by
      have := congrArg List.reverse hr
      simpa using this
    rw [h] at hsr
    exact hs c (t ++ ['.']) (by simpa using hsr)

theorem colonWsRest_facts {r out : Str} (h : colonWsRest r = some out) :
    (∀ c ∈ out, c ∈ r) ∧ HeadNW out ∧ out.length ≤ r.length := by
  unfold colonWsRest at h
  cases hdw : r.dropWhile isSpaceChar with
  | nil => rw [hdw] at h; simp at h
  | cons c0 r2 =>
    rw [hdw] at h
    simp only at h
    split at h
    · simp only [Option.some.injEq] at h
      subst h
      refine ⟨?_, ?_, ?_⟩
      · intro c hc
        have h1 : c ∈ r2 := (List.dropWhile_sublist isSpaceChar).mem hc
        have h2 : c ∈ c0 :: r2 := List.mem_cons_of_mem _ h1
        rw [← hdw] at h2
        exact (List.dropWhile_sublist isSpaceChar).mem h2
      · intro c t hct
        exact dropWhile_head hct
      · have h1 := dropWhile_length_le isSpaceChar r2
        have h2 := dropWhile_length_le isSpaceChar r
        rw [hdw] at h2
        simp only [List.length_cons] at h2
        omega
    · simp at h

theorem tryTagRest_facts {ty s out : Str} (h : tryTagRest ty s = some out) :
    (∀ c ∈ out, c ∈ s) ∧ HeadNW out ∧ out.length ≤ s.length := by
  unfold tryTagRest at h
  split at h
  · rename_i hsw
    cases hdrop : s.drop ty.length with
    | nil =>
      rw [hdrop] at h
      simp only at h
      simp [colonWsRest] at h
    | cons c0 rest =>
      rw [hdrop] at h
      simp only at h
      split at h
      · cases hdw : rest.dropWhile (fun d => d != ')') with
        | nil => rw [hdw] at h; simp at h
        | cons x r2 =>
          rw [hdw] at h
          simp only at h
          obtain ⟨hm, hh, hl⟩ := colonWsRest_facts h
          refine ⟨?_, hh, ?_⟩
          · intro c hc
            have h1 : c ∈ x :: r2 := List.mem_cons_of_mem _ (hm c hc)
            rw [← hdw] at h1
            have h2 : c ∈ rest := (List.dropWhile_sublist _).mem h1
            have h3 : c ∈ c0 :: rest := List.mem_cons_of_mem _ h2
            rw [← hdrop] at h3
            exact List.mem_of_mem_drop h3
          · have h1 := dropWhile_length_le (fun d => d != ')') rest
            rw [hdw] at h1
            simp only [List.length_cons] at h1
            have h2 : (s.drop ty.length).length ≤ s.length := by
              simp [List.length_drop]
            rw [hdrop] at h2
            simp only [List.length_cons] at h2
            omega
      · obtain ⟨hm, hh, hl⟩ := colonWsRest_facts h
        refine ⟨?_, hh, ?_⟩
        · intro c hc
          have h1 : c ∈ c0 :: rest := hm c hc
          rw [← hdrop] at h1
          exact List.mem_of_mem_drop h1
        · have h2 : (s.drop ty.length).length ≤ s.length := by
            simp [List.length_drop]
          rw [hdrop] at h2
          omega
  · simp at h

theorem stripConvTag_facts (s : Str) :
    (∀ c ∈ stripConvTag s, c ∈ s) ∧
      (HeadNW s → HeadNW (stripConvTag s)) ∧
      (stripConvTag s).length ≤ s.length := by
  unfold stripConvTag
  cases hfs : firstSome STRIP_TAGS (fun ty => tryTagRest ty s) with
  | none => exact ⟨fun c hc => hc, fun h => h, Nat.le_refl _⟩
  | some r =>
    obtain ⟨ty, _, hty⟩ := firstSome_eq_some hfs
    obtain ⟨hm, hh, hl⟩ := tryTagRest_facts hty
    exact ⟨hm, fun _ => hh, hl⟩

theorem stripKeywords_facts (kws : List Str) (s : Str) :
    (∀ c ∈ stripKeywords kws s, c ∈ s) ∧
      (HeadNW s → HeadNW (stripKeywords kws s)) ∧
      (stripKeywords kws s).length ≤ s.length := by
  unfold stripKeywords
  cases hfs : firstSome kws (fun kw =>
    if startsWith kw (lowerStr s) then
      match s.drop kw.length with
      | c :: rest =>
        if isSpaceChar c then some (rest.dropWhile isSpaceChar) else none
      | [] => none
    else none) with
  | none => exact ⟨fun c hc => hc, fun h => h, Nat.le_refl _⟩
  | some r =>
    dsimp only
    obtain ⟨kw, _, hkw⟩ := firstSome_eq_some hfs
    split at hkw
    · split at hkw
      · rename_i heq c rest hdrop
        split at hkw
        · simp only [Option.some.injEq] at hkw
          subst hkw
          refine ⟨?_, ?_, ?_⟩
          · intro d hd
            have h1 : d ∈ rest := (List.dropWhile_sublist _).mem hd
            have h2 : d ∈ c :: rest := List.mem_cons_of_mem _ h1
            rw [← hdrop] at h2
            exact List.mem_of_mem_drop h2
          · intro _ d t hdt
            exact dropWhile_head hdt
          · have h1 := dropWhile_length_le isSpaceChar rest
            have h2 : (s.drop kw.length).length ≤ s.length := by
              simp [List.length_drop]
            rw [hdrop] at h2
            simp only [List.length_cons] at h2
            omega
        · simp at hkw
      · simp at hkw
    · simp at hkw

theorem removeTypeFromSubject_facts (s ty : Str) :
    (∀ c ∈ removeTypeFromSubject s ty, c ∈ s) ∧
      (HeadNW s → HeadNW (removeTypeFromSubject s ty)) ∧
      (removeTypeFromSubject s ty).length ≤ s.length := by
  unfold removeTypeFromSubject
  obtain ⟨hm1, hh1, hl1⟩ := stripConvTag_facts s
  cases hkw : keywordsOf ty with
  | nil => exact ⟨hm1, hh1, hl1⟩
  | cons k ks =>
    obtain ⟨hm2, hh2, hl2⟩ := stripKeywords_facts (k :: ks) (stripConvTag s)
    exact ⟨fun c hc => hm1 c (hm2 c hc), fun h => hh2 (hh1 h), Nat.le_trans hl2 hl1⟩

theorem detectCommitType_mem (s : Str) :
    detectCommitType s ∈ CONVENTIONAL_TYPES := by
  have hd : detectCommitType s =
      match firstSome TYPE_DETECTION_MAP (fun p =>
        if p.2.any (fun keyword => isSubstr keyword (lowerStr s)) then some p.1 else none) with
      | some ty => ty
      | none => "feat".data := rfl
  rw [hd]
  cases hfs : firstSome TYPE_DETECTION_MAP (fun p =>
    if p.2.any (fun keyword => isSubstr keyword (lowerStr s)) then some p.1 else none) with
  | none => decide
  | some ty =>
    obtain ⟨p, hp, hfp⟩ := firstSome_eq_some hfs
    split at hfp
    · simp only [Option.some.injEq] at hfp
      subst hfp
      have hall : ∀ q ∈ TYPE_DETECTION_MAP, q.1 ∈ CONVENTIONAL_TYPES := by decide
      exact hall p hp
    · simp at hfp


/-- Strings made of non-whitespace characters only. -/
def NWStr (s : Str) : Prop := ∀ c ∈ s, isSpaceChar c = false

instance (s : Str) : Decidable (NWStr s) := by
  unfold NWStr
  exact List.decidableBAll _ s

instance (s : Str) : Decidable (SaneStr s) := by
  unfold SaneStr
  exact List.decidableBAll _ s

instance (s : Str) : Decidable (HeadNW s) :=
  match s with
  | [] => Decidable.isTrue (fun c t h => by cases h)
  | c :: r =>
    if hc : isSpaceChar c = false then
      Decidable.isTrue (fun d t hdt => by cases hdt; exact hc)
    else Decidable.isFalse (fun ha => hc (ha c r rfl))

theorem startsWith_append (p r : Str) : startsWith p (p ++ r) = true := by
  induction p with
  | nil => rfl
  | cons c cs ih => simp [startsWith, ih]

theorem types_facts : ∀ t ∈ CONVENTIONAL_TYPES, t ≠ [] ∧ t.length ≤ 8 ∧ NWStr t := by
  decide

theorem convRegexTest_build {ty d : Str} (hty : ty ∈ CONVENTIONAL_TYPES)
    (hd : d ≠ []) (hdh : ∀ c t, d = c :: t → isLineTerm c = false) :
    convRegexTest (ty ++ ':' :: ' ' :: d) = true := by
  unfold convRegexTest
  rw [List.any_eq_true]
  refine ⟨ty, hty, ?_⟩
  rw [Bool.and_eq_true]
  refine ⟨startsWith_append ty _, ?_⟩
  show (colonDescTest ((ty ++ ':' :: ' ' :: d).drop ty.length) || _) = true
  rw [List.drop_left ty (':' :: ' ' :: d)]
  have hcd : colonDescTest (':' :: ' ' :: d) = true := by
    unfold colonDescTest
    rw [Bool.and_eq_true]
    constructor
    · simp [startsWith]
    · cases d with
      | nil => exact absurd rfl hd
      | cons c t =>
        simp only [List.drop_succ_cons, List.drop_zero]
        simp [hdh c t rfl]
  rw [hcd]
  simp

theorem lowercaseFirst_length (s : Str) : (lowercaseFirst s).length = s.length := by
  cases s <;> simp [lowercaseFirst]

theorem capitalizeFirst_length (s : Str) : (capitalizeFirst s).length = s.length := by
  cases s <;> simp [capitalizeFirst]

theorem lowercaseFirst_shape {s : Str} (hh : HeadNW s) (hs : SaneStr s) :
    SaneStr (lowercaseFirst s) ∧ HeadNW (lowercaseFirst s) ∧
      (s ≠ [] → lowercaseFirst s ≠ []) := by
  cases s with
  | nil => exact ⟨hs, hh, fun h => absurd rfl h⟩
  | cons c r =>
    have hc : isSpaceChar c = false := hh c r rfl
    have hlc : isSpaceChar (lowerChar c) = false := by rw [lowerChar_space]; exact hc
    refine ⟨?_, ?_, fun _ => by simp [lowercaseFirst]⟩
    · intro d hd
      rcases List.mem_cons.mp hd with h | h
      · subst h; exact ne_nl_of_not_ws hlc
      · exact hs d (List.mem_cons_of_mem _ h)
    · intro d t hdt
      simp only [lowercaseFirst, List.cons.injEq] at hdt
      rw [← hdt.1]
      exact hlc

theorem capitalizeFirst_shape {s : Str} (hh : HeadNW s) (hs : SaneStr s) :
    SaneStr (capitalizeFirst s) ∧ HeadNW (capitalizeFirst s) := by
  cases s with
  | nil => exact ⟨hs, hh⟩
  | cons c r =>
    have hc : isSpaceChar c = false := hh c r rfl
    have hlc : isSpaceChar (upperChar c) = false := by rw [upperChar_space]; exact hc
    constructor
    · intro d hd
      rcases List.mem_cons.mp hd with h | h
      · subst h; exact ne_nl_of_not_ws hlc
      · exact hs d (List.mem_cons_of_mem _ h)
    · intro d t hdt
      simp only [capitalizeFirst, List.cons.injEq] at hdt
      rw [← hdt.1]
      exact hlc

theorem action_words_facts : ∀ w ∈ ACTION_WORDS, w ≠ [] ∧ NWStr w := by decide

theorem technical_terms_facts : ∀ w ∈ TECHNICAL_TERMS, w ≠ [] ∧ NWStr w := by decide

theorem sane_of_nw {s : Str} (h : NWStr s) : SaneStr s :=
  fun c hc => ne_nl_of_not_ws (h c hc)

theorem sane_append {a b : Str} (ha : SaneStr a) (hb : SaneStr b) :
    SaneStr (a ++ b) :=
  fun c hc => (List.mem_append.mp hc).elim (ha c) (hb c)

theorem sane_cons {c : Char} {t : Str} (hc : c ≠ '\n') (ht : SaneStr t) :
    SaneStr (c :: t) := by
  intro d hd
  rcases List.mem_cons.mp hd with h | h
  · subst h; exact hc
  · exact ht d h

theorem shape_append {a x : Str} {hd : Char} {tl : Str}
    (ha : a = hd :: tl) (hw : isSpaceChar hd = false) :
    ∃ h2 t2, a ++ x = h2 :: t2 ∧ isSpaceChar h2 = false :=
  ⟨hd, tl ++ x, by rw [ha]; simp, hw⟩

theorem summaryAction_facts (words : List Str) :
    summaryAction words ≠ [] ∧ NWStr (summaryAction words) := by
  unfold summaryAction
  cases hf : words.find? (fun word => ACTION_WORDS.contains word) with
  | none => exact ⟨by decide, by decide⟩
  | some w =>
    have hp := List.find?_some hf
    have hw : w ∈ ACTION_WORDS := by simpa using hp
    exact action_words_facts w hw

theorem summaryContext_facts {words : List Str}
    (h : ∀ w ∈ words, NWStr w) : NWStr (summaryContext words) := by
  unfold summaryContext
  cases hf : TECHNICAL_TERMS.find? (fun term => words.contains term) with
  | some t => exact (technical_terms_facts t (List.mem_of_find?_eq_some hf)).2
  | none =>
    cases hf2 : words.find? (fun word =>
        word.length > 4 && !(CONTEXT_STOP_WORDS.contains word)) with
    | some w => exact h w (List.mem_of_find?_eq_some hf2)
    | none => decide

theorem extractSummary_shape (m : Str) :
    (∃ hd t, extractSummary m = hd :: t ∧ isSpaceChar hd = false) ∧
      SaneStr (extractSummary m) := by
  have hgoal : extractSummary m =
      (let words := splitWs (lowerStr m)
       if words.contains ("git".data) && words.contains ("commit".data) then
         summaryAction words ++ ' ' :: "git commit ".data ++
           (if words.contains ("body".data) then "body".data
            else if words.contains ("subject".data) then "subject".data
            else "handling".data)
       else if words.contains ("template".data) || words.contains ("format".data) then
         summaryAction words ++ ' ' :: summaryContext words ++ ' ' ::
           (if words.contains ("format".data) then "formatting".data
            else "template".data)
       else summaryAction words ++ ' ' :: summaryContext words) := rfl
  rw [hgoal]
  simp only []
  set words := splitWs (lowerStr m) with hwdef
  obtain ⟨hane, hanw⟩ := summaryAction_facts words
  have hcfacts : NWStr (summaryContext words) :=
    summaryContext_facts (fun w hw c hc => splitWs_mem hw c hc)
  obtain ⟨ahd, atl, hasplit⟩ := List.exists_cons_of_ne_nil hane
  have hahd : isSpaceChar ahd = false :=
    hanw ahd (by rw [hasplit]; exact List.mem_cons_self _ _)
  have hsub1 : SaneStr (if words.contains ("body".data) then "body".data
      else if words.contains ("subject".data) then "subject".data
      else "handling".data) := by
    split
    · decide
    · split
      · decide
      · decide
  have hsub2 : SaneStr (if words.contains ("format".data) then "formatting".data
      else "template".data) := by
    split
    · decide
    · decide
  constructor
  · split
    · first
      | exact shape_append hasplit hahd
      | (rw [List.append_assoc]; exact shape_append hasplit hahd)
    · split
      · first
        | exact shape_append hasplit hahd
        | (rw [List.append_assoc]; exact shape_append hasplit hahd)
      · exact shape_append hasplit hahd
  · have hgc : SaneStr ("git commit ".data) := by decide
    have hsp : (' ' : Char) ≠ '\n' := by decide
    split
    · simp only [List.append_assoc, List.cons_append]
      exact sane_append (sane_of_nw hanw)
        (sane_cons hsp (sane_append hgc hsub1))
    · split
      · simp only [List.append_assoc, List.cons_append]
        exact sane_append (sane_of_nw hanw)
          (sane_cons hsp
            (sane_append (sane_of_nw hcfacts) (sane_cons hsp hsub2)))
      · exact sane_append (sane_of_nw hanw)
          (sane_cons hsp (sane_of_nw hcfacts))

theorem detectCommitType_len (s : Str) : (detectCommitType s).length ≤ 8 :=
  (types_facts _ (detectCommitType_mem s)).2.1

theorem detectCommitType_sane (s : Str) : SaneStr (detectCommitType s) :=
  sane_of_nw (types_facts _ (detectCommitType_mem s)).2.2

theorem conv_ensure_props {s : Str} (hs : SaneStr s) (hh : HeadNW s) :
    convRegexTest (ConventionalFormatter.ensureConventionalFormat s) = true ∧
      SaneStr (ConventionalFormatter.ensureConventionalFormat s) ∧
      (s.length ≤ 72 →
        (ConventionalFormatter.ensureConventionalFormat s).length ≤ 82) := by
  have hgoal : ConventionalFormatter.ensureConventionalFormat s =
      detectCommitType s ++ ':' :: ' ' ::
        lowercaseFirst
          (if (removeTypeFromSubject s (detectCommitType s)).isEmpty then
            "update code".data
           else removeTypeFromSubject s (detectCommitType s)) := rfl
  rw [hgoal]
  obtain ⟨hm, hhp, hl⟩ := removeTypeFromSubject_facts s (detectCommitType s)
  have hdesc : SaneStr (if (removeTypeFromSubject s (detectCommitType s)).isEmpty then
        "update code".data
      else removeTypeFromSubject s (detectCommitType s)) ∧
      HeadNW (if (removeTypeFromSubject s (detectCommitType s)).isEmpty then
        "update code".data
      else removeTypeFromSubject s (detectCommitType s)) ∧
      (if (removeTypeFromSubject s (detectCommitType s)).isEmpty then
        "update code".data
      else removeTypeFromSubject s (detectCommitType s)) ≠ [] := by
    split
    · exact ⟨by decide, by decide, by decide⟩
    · rename_i hne
      refine ⟨fun c hc => hs c (hm c hc), hhp hh, ?_⟩
      simpa using hne
  obtain ⟨hdsane, hdhead, hdne⟩ := hdesc
  obtain ⟨hlcs, hlch, hlcn⟩ := lowercaseFirst_shape hdhead hdsane
  have hlcne := hlcn hdne
  constructor
  · apply convRegexTest_build (detectCommitType_mem s) hlcne
    intro c t hct
    exact not_lt_of_not_ws (hlch c t hct)
  constructor
  · apply sane_append (detectCommitType_sane s)
    apply sane_cons (by decide)
    apply sane_cons (by decide)
    exact hlcs
  · intro hlen
    have h2 := detectCommitType_len s
    simp only [List.length_append, List.length_cons, lowercaseFirst_length]
    split
    · simp only [List.length_cons, List.length_nil]
      omega
    · omega

theorem conv_formatSubject_props {s : Str} (hs : SaneStr s) (hh : HeadNW s) :
    convRegexTest (ConventionalFormatter.formatSubject s) = true ∧
      SaneStr (ConventionalFormatter.formatSubject s) ∧
      (s.length ≤ 72 → (ConventionalFormatter.formatSubject s).length ≤ 82) := by
  have hgoal : ConventionalFormatter.formatSubject s =
      if convRegexTest (removeTrailingPeriod s) then removeTrailingPeriod s
      else ConventionalFormatter.ensureConventionalFormat (removeTrailingPeriod s) := rfl
  rw [hgoal]
  have hrs : SaneStr (removeTrailingPeriod s) :=
    fun c hc => hs c (removeTrailingPeriod_mem hc)
  have hrh : HeadNW (removeTrailingPeriod s) := removeTrailingPeriod_head hh
  have hrl := removeTrailingPeriod_length s
  split
  · rename_i hc
    exact ⟨hc, hrs, fun hlen => by omega⟩
  · obtain ⟨h1, h2, h3⟩ := conv_ensure_props hrs hrh
    exact ⟨h1, h2, fun hlen => h3 (by omega)⟩

theorem conv_createSummary_props (s : Str) :
    convRegexTest (ConventionalFormatter.createSummarySubject s) = true ∧
      SaneStr (ConventionalFormatter.createSummarySubject s) := by
  have hgoal : ConventionalFormatter.createSummarySubject s =
      detectCommitType s ++ ':' :: ' ' ::
        lowercaseFirst
          (extractSummary (removeTypeFromSubject s (detectCommitType s))) := rfl
  rw [hgoal]
  obtain ⟨⟨hd, t, hsplit, hhd⟩, hsane⟩ :=
    extractSummary_shape (removeTypeFromSubject s (detectCommitType s))
  have hhead : HeadNW (extractSummary (removeTypeFromSubject s (detectCommitType s))) := by
    intro c r hcr
    rw [hsplit] at hcr
    cases hcr
    exact hhd
  obtain ⟨hlcs, hlch, hlcn⟩ := lowercaseFirst_shape hhead hsane
  have hlcne := hlcn (by rw [hsplit]; simp)
  constructor
  · apply convRegexTest_build (detectCommitType_mem s) hlcne
    intro c r hcr
    exact not_lt_of_not_ws (hlch c r hcr)
  · apply sane_append (detectCommitType_sane s)
    apply sane_cons (by decide)
    apply sane_cons (by decide)
    exact hlcs

theorem freeform_formatSubject_props {s : Str} (hs : SaneStr s) (hh : HeadNW s) :
    SaneStr (FreeformFormatter.formatSubject s) ∧
      (FreeformFormatter.formatSubject s).length ≤ s.length := by
  have hgoal : FreeformFormatter.formatSubject s =
      capitalizeFirst (removeTrailingPeriod s) := rfl
  rw [hgoal]
  have hrs : SaneStr (removeTrailingPeriod s) :=
    fun c hc => hs c (removeTrailingPeriod_mem hc)
  have hrh : HeadNW (removeTrailingPeriod s) := removeTrailingPeriod_head hh
  refine ⟨(capitalizeFirst_shape hrh hrs).1, ?_⟩
  rw [capitalizeFirst_length]
  exact removeTrailingPeriod_length s

theorem procFormat_eq {style : CommitStyle} {raw first : Str} {rest : List Str}
    (h : MessageSanitizer.parseLines (modularSanitizePure raw) = first :: rest) :
    CommitMessageProcessor.format style raw =
      Except.ok (baseFormat style first
        (if rest.isEmpty then none else some (trimStr (joinNL rest)))) := by
  have hraw : raw ≠ [] := by
    intro hz
    subst hz
    rw [show MessageSanitizer.parseLines (modularSanitizePure []) = [] from rfl] at h
    simp at h
  unfold CommitMessageProcessor.format MessageSanitizer.sanitize
  rw [if_neg hraw]
  dsimp only
  rw [h]

theorem getSubjectLine_join {fs fb : Str} (hsane : SaneStr fs) :
    getSubjectLine (if fb.isEmpty then fs else fs ++ '\n' :: '\n' :: fb) = fs := by
  split
  · exact getSubjectLine_of_sane hsane
  · exact getSubjectLine_append hsane

theorem mem_iteSingleton {c v : Str} {p : Prop} [Decidable p] :
    (c ∈ (if p then [v] else [])) ↔ p ∧ c = v := by
  split <;> simp_all

theorem convValidate_mem_iff (m v : Str) :
    v ∈ (ConventionalValidator.validate m).errors ↔
      (((getSubjectLine m).length > SUBJECT_MAX_LENGTH ∧ v = lengthViolation) ∨
       ((getSubjectLine m).length = 0 ∧ v = emptyViolation) ∨
       (convRegexTest (getSubjectLine m) = false ∧ v = formatViolation) ∨
       (capitalViolation (getSubjectLine m) = true ∧ v = capitalViolationMsg) ∨
       (endsWithDot (getSubjectLine m) = true ∧ v = periodViolation)) := by
  have hgoal : (ConventionalValidator.validate m).errors =
      validateBasicStructure (getSubjectLine m) ++
        (if !(convRegexTest (getSubjectLine m)) then [formatViolation] else []) ++
        (if capitalViolation (getSubjectLine m) then [capitalViolationMsg] else []) ++
        (if endsWithDot (getSubjectLine m) then [periodViolation] else []) := rfl
  rw [hgoal]
  unfold validateBasicStructure
  simp only [List.mem_append, mem_iteSingleton, Bool.not_eq_true']
  tauto

theorem convValidate_valid_iff (m : Str) :
    (ConventionalValidator.validate m).valid = true ↔
      (ConventionalValidator.validate m).errors = [] := by
  have hv : (ConventionalValidator.validate m).valid =
      (ConventionalValidator.validate m).errors.isEmpty := rfl
  rw [hv, List.isEmpty_iff]

/-- Ordered keyword-table classification written as a chain of tests; used to
bridge the loop of `detectCommitType` with the spelled-out priority order of
claim C4. -/
def chainClassify (map : List (Str × List Str)) (pred : Str → Bool) : Str :=
  match map with
  | [] => "feat".data
  | (ty, kws) :: rest => if kws.any pred then ty else chainClassify rest pred

theorem firstSome_chain (map : List (Str × List Str)) (pred : Str → Bool) :
    (match firstSome map (fun p => if p.2.any pred then some p.1 else none) with
     | some ty => ty
     | none => "feat".data) = chainClassify map pred := by
  induction map with
  | nil => rfl
  | cons a rest ih =>
    obtain ⟨ty, kws⟩ := a
    unfold firstSome chainClassify
    dsimp only
    by_cases h : kws.any pred = true
    · rw [if_pos h]
      dsimp only
      rw [if_pos h]
    · rw [if_neg h]
      dsimp only
      rw [if_neg h]
      exact ih

theorem baseFormat_subject (style : CommitStyle) (subject : Str) (body : Option Str)
    (hsane : SaneStr (if subject.length > SUBJECT_MAX_LENGTH then createSummarySt style subject
      else formatSubjectSt style subject)) :
    getSubjectLine (baseFormat style subject body) =
      (if subject.length > SUBJECT_MAX_LENGTH then createSummarySt style subject
       else formatSubjectSt style subject) := by
  have hgoal : baseFormat style subject body =
      (if (match body with | some b => formatBody style b | none => []).isEmpty then
        (if subject.length > SUBJECT_MAX_LENGTH then createSummarySt style subject
         else formatSubjectSt style subject)
      else
        (if subject.length > SUBJECT_MAX_LENGTH then createSummarySt style subject
         else formatSubjectSt style subject) ++ '\n' :: '\n' ::
          (match body with | some b => formatBody style b | none => [])) := rfl
  rw [hgoal]
  exact getSubjectLine_join hsane

/-- Classification spelled out the way claim C4 words it: scan the fixed
keyword lists in the priority order feat, fix, docs, refactor, test, style,
perf, build, ci; each keyword is tested as a substring of the lower-cased
text; the first type with a hit wins, and `feat` is returned when no keyword
of any type hits. -/
def claimClassify (text : Str) : Str :=
  let lt := lowerStr text
  if ["add".data, "implement".data, "create".data, "introduce".data].any
      (fun kw => isSubstr kw lt) then "feat".data
  else if ["fix".data, "resolve".data, "correct".data, "repair".data,
      "patch".data].any (fun kw => isSubstr kw lt) then "fix".data
  else if ["doc".data, "readme".data, "comment".data, "documentation".data].any
      (fun kw => isSubstr kw lt) then "docs".data
  else if ["refactor".data, "restructure".data, "reorganize".data,
      "rewrite".data].any (fun kw => isSubstr kw lt) then "refactor".data
  else if ["test".data, "spec".data, "testing".data].any
      (fun kw => isSubstr kw lt) then "test".data
  else if ["style".data, "format".data, "lint".data, "prettier".data].any
      (fun kw => isSubstr kw lt) then "style".data
  else if ["performance".data, "optimize".data, "speed".data, "faster".data].any
      (fun kw => isSubstr kw lt) then "perf".data
  else if ["build".data, "compile".data, "bundle".data, "webpack".data].any
      (fun kw => isSubstr kw lt) then "build".data
  else if ["ci".data, "pipeline".data, "workflow".data, "github".data,
      "actions".data].any (fun kw => isSubstr kw lt) then "ci".data
  else "feat".data

/-- C4: for every input text, `classify` lower-cases the text, scans the fixed
type table in the priority order feat, fix, docs, refactor, test, style, perf,
build, ci, testing each type's keywords as substrings of the lower-cased text,
returns the first type with a substring hit, and returns `feat` when no
keyword of any type hits. -/
theorem claim4_classifier_priority_order (text : Str) :
    detectCommitType text = claimClassify text := by
  have hd : detectCommitType text =
      match firstSome TYPE_DETECTION_MAP (fun p =>
        if p.2.any (fun keyword => isSubstr keyword (lowerStr text)) then some p.1
        else none) with
      | some ty => ty
      | none => "feat".data := rfl
  have hc : claimClassify text =
      (if ["add".data, "implement".data, "create".data, "introduce".data].any
          (fun kw => isSubstr kw (lowerStr text)) then "feat".data
      else if ["fix".data, "resolve".data, "correct".data, "repair".data,
          "patch".data].any (fun kw => isSubstr kw (lowerStr text)) then "fix".data
      else if ["doc".data, "readme".data, "comment".data,
          "documentation".data].any (fun kw => isSubstr kw (lowerStr text)) then
        "docs".data
      else if ["refactor".data, "restructure".data, "reorganize".data,
          "rewrite".data].any (fun kw => isSubstr kw (lowerStr text)) then
        "refactor".data
      else if ["test".data, "spec".data, "testing".data].any
          (fun kw => isSubstr kw (lowerStr text)) then "test".data
      else if ["style".data, "format".data, "lint".data, "prettier".data].any
          (fun kw => isSubstr kw (lowerStr text)) then "style".data
      else if ["performance".data, "optimize".data, "speed".data,
          "faster".data].any (fun kw => isSubstr kw (lowerStr text)) then "perf".data
      else if ["build".data, "compile".data, "bundle".data, "webpack".data].any
          (fun kw => isSubstr kw (lowerStr text)) then "build".data
      else if ["ci".data, "pipeline".data, "workflow".data, "github".data,
          "actions".data].any (fun kw => isSubstr kw (lowerStr text)) then "ci".data
      else "feat".data) := rfl
  have h1 : detectCommitType text =
      chainClassify TYPE_DETECTION_MAP (fun keyword => isSubstr keyword (lowerStr text)) := by
    rw [hd]
    exact firstSome_chain TYPE_DETECTION_MAP (fun keyword => isSubstr keyword (lowerStr text))
  rw [h1, hc]
  rfl

/-- A 72-character subject candidate with no detection keyword. -/
def zLine72 : Str := List.replicate 72 'z'

/-- An 89-character first line made of 18 four-letter words. -/
def wordsLine89 : Str := List.intercalate (" ".data) (List.replicate 18 ("zzzz".data))

/-- C1 (counterexample): the round-trip claim fails as stated — for the raw
input `foo..` the conventional pipeline formats to `feat: foo.`, whose
trailing period makes the validator report the message as invalid. -/
theorem claim1_roundtrip_cex :
    CommitMessageProcessor.format CommitStyle.conventional ("foo..".data) =
      Except.ok ("feat: foo.".data) ∧
    (ConventionalValidator.validate ("feat: foo.".data)).valid = false := by
  constructor
  · decide
  · decide

/-- C1 (amended): for every raw input with at least one non-empty line after
sanitization, the conventional pipeline succeeds and its subject line always
matches the conventional pattern, so the pattern violation never appears in
`validate(format(raw))`; the round trip can still be invalid, but only
through the length, capitalization or trailing-period checks. -/
theorem claim1_format_subject_matches_pattern (raw first : Str) (rest : List Str)
    (h : MessageSanitizer.parseLines (modularSanitizePure raw) = first :: rest) :
    ∃ m, CommitMessageProcessor.format CommitStyle.conventional raw = Except.ok m ∧
      convRegexTest (getSubjectLine m) = true ∧
      formatViolation ∉ (ConventionalValidator.validate m).errors := by
  have hmem : first ∈ MessageSanitizer.parseLines (modularSanitizePure raw) := by
    rw [h]
    exact List.mem_cons_self _ _
  obtain ⟨hne, hsane, hhead, htrim⟩ := parseLines_mem hmem
  rw [procFormat_eq h]
  have hfs : convRegexTest (if first.length > SUBJECT_MAX_LENGTH
        then createSummarySt CommitStyle.conventional first
        else formatSubjectSt CommitStyle.conventional first) = true ∧
      SaneStr (if first.length > SUBJECT_MAX_LENGTH
        then createSummarySt CommitStyle.conventional first
        else formatSubjectSt CommitStyle.conventional first) := by
    split
    · exact ⟨(conv_createSummary_props first).1, (conv_createSummary_props first).2⟩
    · exact ⟨(conv_formatSubject_props hsane hhead).1,
        (conv_formatSubject_props hsane hhead).2.1⟩
  obtain ⟨hfst, hfsane⟩ := hfs
  refine ⟨_, rfl, ?_, ?_⟩
  · rw [baseFormat_subject _ _ _ hfsane]
    exact hfst
  · intro habs
    rw [convValidate_mem_iff] at habs
    rw [baseFormat_subject _ _ _ hfsane] at habs
    rcases habs with ⟨_, he⟩ | ⟨_, he⟩ | ⟨hc, _⟩ | ⟨_, he⟩ | ⟨_, he⟩
    · exact absurd he (by decide)
    · exact absurd he (by decide)
    · rw [hfst] at hc
      cases hc
    · exact absurd he (by decide)
    · exact absurd he (by decide)

/-- C1 (witness): the amended round-trip property at the concrete raw input
`hello world`. -/
theorem claim1_witness :
    ∃ m, CommitMessageProcessor.format CommitStyle.conventional ("hello world".data) =
        Except.ok m ∧
      convRegexTest (getSubjectLine m) = true ∧
      formatViolation ∉ (ConventionalValidator.validate m).errors :=
  claim1_format_subject_matches_pattern ("hello world".data) ("hello world".data) []
    (by decide)

/-- C3 (counterexample): the 72-character first line of z characters stays on
the direct path, receives the `feat: ` tag and yields a 78-character rendered
subject — longer than 72 without the summarizer or the `update code` fallback
being involved. -/
theorem claim3_length_cex :
    CommitMessageProcessor.format CommitStyle.conventional zLine72 =
      Except.ok ("feat: ".data ++ zLine72) ∧
    ("feat: ".data ++ zLine72).length = 78 ∧
    isSubstr ("update code".data) ("feat: ".data ++ zLine72) = false := by
  refine ⟨by decide, by decide, by decide⟩

/-- C3 (amended): when the first non-empty line is within the 72-character
budget, the conventional pipeline renders a subject of at most 82 characters
(candidate plus a type tag of at most 10 characters, with the `update code`
fallback when stripping leaves nothing), and the freeform pipeline renders a
subject of at most 72 characters; on the summarizer path the subject is
unbounded, since a single long word can be copied as the context. -/
theorem claim3_subject_length_bound (raw first : Str) (rest : List Str)
    (h : MessageSanitizer.parseLines (modularSanitizePure raw) = first :: rest)
    (hlen : first.length ≤ SUBJECT_MAX_LENGTH) :
    (∃ m, CommitMessageProcessor.format CommitStyle.conventional raw = Except.ok m ∧
      (getSubjectLine m).length ≤ 82) ∧
    (∃ m, CommitMessageProcessor.format CommitStyle.freeform raw = Except.ok m ∧
      (getSubjectLine m).length ≤ SUBJECT_MAX_LENGTH) := by
  have hmem : first ∈ MessageSanitizer.parseLines (modularSanitizePure raw) := by
    rw [h]
    exact List.mem_cons_self _ _
  obtain ⟨hne, hsane, hhead, htrim⟩ := parseLines_mem hmem
  have hni : ¬(first.length > SUBJECT_MAX_LENGTH) := by omega
  constructor
  · rw [procFormat_eq h]
    have hfsane : SaneStr (if first.length > SUBJECT_MAX_LENGTH
        then createSummarySt CommitStyle.conventional first
        else formatSubjectSt CommitStyle.conventional first) := by
      rw [if_neg hni]
      exact (conv_formatSubject_props hsane hhead).2.1
    refine ⟨_, rfl, ?_⟩
    rw [baseFormat_subject _ _ _ hfsane, if_neg hni]
    exact (conv_formatSubject_props hsane hhead).2.2 hlen
  · rw [procFormat_eq h]
    have hfsane : SaneStr (if first.length > SUBJECT_MAX_LENGTH
        then createSummarySt CommitStyle.freeform first
        else formatSubjectSt CommitStyle.freeform first) := by
      rw [if_neg hni]
      exact (freeform_formatSubject_props hsane hhead).1
    refine ⟨_, rfl, ?_⟩
    rw [baseFormat_subject _ _ _ hfsane, if_neg hni]
    exact Nat.le_trans (freeform_formatSubject_props hsane hhead).2 hlen

/-- C3 (witness): the subject-length bounds at the concrete raw input
`hi there`. -/
theorem claim3_witness :
    (∃ m, CommitMessageProcessor.format CommitStyle.conventional ("hi there".data) =
        Except.ok m ∧ (getSubjectLine m).length ≤ 82) ∧
    (∃ m, CommitMessageProcessor.format CommitStyle.freeform ("hi there".data) =
        Except.ok m ∧ (getSubjectLine m).length ≤ SUBJECT_MAX_LENGTH) :=
  claim3_subject_length_bound ("hi there".data) ("hi there".data) [] (by decide)
    (by decide)

/-- C2 (counterexample): for an 89-character first line of four-letter words,
the modular pipeline summarizes the subject but returns a message with no
body at all — the original line does not appear anywhere in the output, so
information is discarded. -/
theorem claim2_long_line_cex :
    CommitMessageProcessor.format CommitStyle.conventional wordsLine89 =
      Except.ok ("feat: update functionality".data) ∧
    wordsLine89.length = 89 ∧
    isSubstr wordsLine89 ("feat: update functionality".data) = false := by
  refine ⟨by decide, by decide, by decide⟩

/-- C2 (amended): in the legacy pipeline (`templates.ts`) the over-long first
line is moved into the body: for a single-line raw input whose line exceeds
72 characters and is not reshaped by the body-line transformations, the
output is the summarizer subject, a blank line, and a body that ends with the
original line (possibly behind a prepended `- `). -/
theorem claim2_legacy_preserves_long_line (raw line : Str)
    (h : MessageSanitizer.parseLines (legacySanitizePure raw) = [line])
    (hlong : line.length > SUBJECT_MAX_LENGTH)
    (h1 : stripConvTag line = line)
    (h2 : bulletRe line = line)
    (h3 : numDotRe line = line) :
    ∃ body, Legacy.format CommitStyle.conventional raw =
        Except.ok (Legacy.createSummarySubject CommitStyle.conventional line ++
          '\n' :: '\n' :: body) ∧
      List.IsSuffix line body := by
  have hmem : line ∈ MessageSanitizer.parseLines (legacySanitizePure raw) := by
    rw [h]
    exact List.mem_cons_self _ _
  obtain ⟨hne, hsane, hhead, htrim⟩ := parseLines_mem hmem
  have hraw : raw ≠ [] := by
    intro hz
    subst hz
    rw [show MessageSanitizer.parseLines (legacySanitizePure []) = [] from rfl] at h
    simp at h
  have hempty : line.isEmpty = false := by
    cases line with
    | nil => exact absurd rfl hne
    | cons c t => rfl
  have hcpb : ∃ pre, convProcessBodyLine line = pre ++ line ∧
      (pre = [] ∨ pre = ['-', ' ']) := by
    have hg : convProcessBodyLine line =
        (if !(numDotRe (bulletRe (stripConvTag line))).isEmpty &&
            !(startsWith ['-'] (numDotRe (bulletRe (stripConvTag line)))) &&
            !(startsWith [' '] (numDotRe (bulletRe (stripConvTag line)))) &&
            (isSubstr ("add".data) (numDotRe (bulletRe (stripConvTag line))) ||
              isSubstr ("fix".data) (numDotRe (bulletRe (stripConvTag line))) ||
              isSubstr ("update".data) (numDotRe (bulletRe (stripConvTag line)))) then
          '-' :: ' ' :: numDotRe (bulletRe (stripConvTag line))
        else numDotRe (bulletRe (stripConvTag line))) := rfl
    rw [hg, h1, h2, h3]
    split
    · exact ⟨['-', ' '], rfl, Or.inr rfl⟩
    · exact ⟨[], rfl, Or.inl rfl⟩
  obtain ⟨pre, hpre, _⟩ := hcpb
  have hbodyline : Legacy.formatBody line = convProcessBodyLine line := by
    unfold Legacy.formatBody
    rw [htrim, if_neg (by simp [hempty])]
    rw [splitNL_no_nl_eq hsane]
    simp only [List.map_cons, List.map_nil, htrim, List.filter, hempty]
    simp [joinNL]
  have hbody_ne : (Legacy.formatBody line).isEmpty = false := by
    rw [hbodyline, hpre]
    cases line with
    | nil => exact absurd rfl hne
    | cons c t => cases pre <;> rfl
  unfold Legacy.format
  rw [if_neg hraw]
  dsimp only
  rw [h]
  dsimp only
  rw [if_pos hlong]
  have e1 : (if ([] : List Str).isEmpty = true then ([] : Str) else trimStr (joinNL [])) = [] := rfl
  rw [e1]
  have e2 : (if ([] : Str).isEmpty = true then line
      else line ++ '\n' :: '\n' :: ([] : Str)) = line := rfl
  rw [e2]
  dsimp only
  have hbne : ¬(Legacy.formatBody line = []) := by
    intro hz
    rw [hz] at hbody_ne
    simp at hbody_ne
  rw [if_neg (by simp [hempty, hbne])]
  rw [if_neg (by simp [hempty])]
  refine ⟨Legacy.formatBody line, rfl, ?_⟩
  rw [hbodyline, hpre]
  exact ⟨pre, rfl⟩

/-- A 90-character subject candidate with no detection keyword. -/
def zLine90 : Str := List.replicate 90 'z'

/-- C2 (witness): the legacy body-preservation property at the concrete
90-character line of z characters. -/
theorem claim2_witness :
    ∃ body, Legacy.format CommitStyle.conventional zLine90 =
        Except.ok (Legacy.createSummarySubject CommitStyle.conventional zLine90 ++
          '\n' :: '\n' :: body) ∧
      List.IsSuffix zLine90 body :=
  claim2_legacy_preserves_long_line zLine90 zLine90 (by decide) (by decide)
    (by decide) (by decide) (by decide)

/-- C5 (counterexample): an all-whitespace raw input does not make `sanitize`
fail — the guard only rejects the falsy empty string, so `sanitize` returns
the empty string. -/
theorem claim5_whitespace_cex :
    MessageSanitizer.sanitize ("   ".data) = Except.ok [] := by
  decide

/-- C5 (amended): `sanitize` fails with the invalid-input error exactly when
the raw input is the empty string; an input consisting entirely of whitespace
passes the guard and sanitizes to the empty string, and the overall `format`
call then fails later, at the empty-lines check. -/
theorem claim5_sanitize_guard :
    MessageSanitizer.sanitize [] = Except.error invalidInputMsg ∧
      ∀ raw : Str, raw ≠ [] → (∀ c ∈ raw, isSpaceChar c = true) →
        MessageSanitizer.sanitize raw = Except.ok [] ∧
          CommitMessageProcessor.format CommitStyle.conventional raw =
            Except.error emptyGeneratedMsg := by
  refine ⟨rfl, ?_⟩
  intro raw hne hws
  have hsan : modularSanitizePure raw = [] := by
    unfold modularSanitizePure
    rw [trimStr_all_ws hws]
    rfl
  constructor
  · unfold MessageSanitizer.sanitize
    rw [if_neg hne, hsan]
  · unfold CommitMessageProcessor.format MessageSanitizer.sanitize
    rw [if_neg hne, hsan]
    rfl

/-- C5 (witness): the amended sanitizer-guard property applied at the
concrete three-space input. -/
theorem claim5_witness :
    MessageSanitizer.sanitize ("   ".data) = Except.ok [] ∧
      CommitMessageProcessor.format CommitStyle.conventional ("   ".data) =
        Except.error emptyGeneratedMsg :=
  claim5_sanitize_guard.2 ("   ".data) (by decide) (by decide)

/-- C6: a single-line subject of at most 72 characters that does not end with
a period and already matches the conventional pattern is returned unchanged
by the conventional formatter (idempotence). -/
theorem claim6_idempotence (s : Str) (hsane : SaneStr s)
    (hlen : s.length ≤ SUBJECT_MAX_LENGTH) (hdot : endsWithDot s = false)
    (hregex : convRegexTest s = true) :
    baseFormat CommitStyle.conventional s none = s := by
  have hni : ¬(s.length > SUBJECT_MAX_LENGTH) := by omega
  have hrtp : removeTrailingPeriod s = s := by
    unfold removeTrailingPeriod
    unfold endsWithDot at hdot
    split
    · rename_i r heq
      rw [heq] at hdot
      simp at hdot
    · rfl
  have hgoal : baseFormat CommitStyle.conventional s none =
      (if s.length > SUBJECT_MAX_LENGTH then
        createSummarySt CommitStyle.conventional s
      else
        (if convRegexTest (removeTrailingPeriod s) then removeTrailingPeriod s
         else ConventionalFormatter.ensureConventionalFormat
           (removeTrailingPeriod s))) := rfl
  rw [hgoal, if_neg hni, hrtp, if_pos hregex]

/-- C6 (witness): idempotence at the concrete conventional subject
`fix(auth): handle missing token`. -/
theorem claim6_witness :
    baseFormat CommitStyle.conventional ("fix(auth): handle missing token".data) none =
      "fix(auth): handle missing token".data :=
  claim6_idempotence ("fix(auth): handle missing token".data) (by decide) (by decide)
    (by decide) (by decide)

/-- An input longer than 50 characters in which every word is either the
3-character action word `fix` or the filler `aa`, so the freeform key-word
filter selects nothing. -/
def shortWordsLine : Str :=
  "fix aa fix aa fix aa fix aa fix aa fix aa fix aa fix aa".data

/-- C7: the freeform summarizer computes an action word (default `Update`)
but never uses it — on a long text whose words are all at most three
characters long the filtered word string is empty and the result is the
empty string, not the action word, even though the action word `fix` occurs
in the text.  This contradicts the documented fallback and the never-empty
property. -/
theorem claim7_dead_action_fallback :
    FreeformFormatter.createSummarySubject shortWordsLine = [] ∧
      shortWordsLine.length > 50 ∧
      (splitWs (lowerStr shortWordsLine)).contains ("fix".data) = true ∧
      ("fix".data) ∈ ACTION_WORDS := by
  refine ⟨by decide, by decide, by decide, by decide⟩

/-- C8: validation of the empty string reports exactly the empty-subject and
pattern violations with `valid = false`; formatting the empty string fails
with the input error; and in general each violation of the conventional
validator is reported independently — a violation string is in the error
list exactly when its own condition holds — while `valid` is `true` exactly
when the violation list is empty. -/
theorem claim8_empty_and_independence :
    ConventionalValidator.validate [] =
      { valid := false, errors := [emptyViolation, formatViolation] } ∧
    emptyViolation ∈ (ConventionalValidator.validate []).errors ∧
    CommitMessageProcessor.format CommitStyle.conventional [] =
      Except.error invalidInputMsg ∧
    (∀ m, (ConventionalValidator.validate m).valid = true ↔
      (ConventionalValidator.validate m).errors = []) ∧
    (∀ m v, v ∈ (ConventionalValidator.validate m).errors ↔
      (((getSubjectLine m).length > SUBJECT_MAX_LENGTH ∧ v = lengthViolation) ∨
       ((getSubjectLine m).length = 0 ∧ v = emptyViolation) ∨
       (convRegexTest (getSubjectLine m) = false ∧ v = formatViolation) ∨
       (capitalViolation (getSubjectLine m) = true ∧ v = capitalViolationMsg) ∨
       (endsWithDot (getSubjectLine m) = true ∧ v = periodViolation))) :=
  ⟨by decide, by decide, by decide, convValidate_valid_iff, convValidate_mem_iff⟩

/-- C9: the bullet normalization converts `*`, `+` and numbered bullets to a
single leading `- ` with no double prefix (the Scenario E line included), but
the character class of the replacement holds the three characters of a
mis-decoded bullet instead of `•` itself, so a true `•` bullet is not
converted — the list-item heuristic then prepends `- ` in front of the
untouched `•`. -/
theorem claim9_bullet_normalization :
    convProcessBodyLine ("* add new validator".data) = "- add new validator".data ∧
    convProcessBodyLine ("+ fix parser".data) = "- fix parser".data ∧
    convProcessBodyLine ("1. update docs".data) = "- update docs".data ∧
    ('•' ∈ BULLET_CLASS) = False ∧
    convProcessBodyLine ("• add item".data) = "- • add item".data := by
  refine ⟨by decide, by decide, by decide, by simp; decide, by decide⟩

/-- C10 (counterexample): the two pipelines are not extensionally equal — on
the raw input `hello` with the freeform style the legacy pipeline returns
`hello` while the modular pipeline capitalizes to `Hello`. -/
theorem claim10_pipelines_differ_cex :
    Legacy.format CommitStyle.freeform ("hello".data) = Except.ok ("hello".data) ∧
    CommitMessageProcessor.format CommitStyle.freeform ("hello".data) =
      Except.ok ("Hello".data) ∧
    ("hello".data : Str) ≠ "Hello".data := by
  refine ⟨by decide, by decide, by decide⟩

/-- C10 (amended): the pipelines do agree on conventional validation — the
legacy `validate` with the conventional style and the modular
`ConventionalValidator.validate` perform the same checks in the same order
and return identical results on every message. -/
theorem claim10_conventional_validators_agree (m : Str) :
    Legacy.validate CommitStyle.conventional m = ConventionalValidator.validate m := by
  unfold Legacy.validate ConventionalValidator.validate validateBasicStructure
    getSubjectLine
  dsimp only
  simp only [List.append_assoc]
